import Mathlib

/-!
# SimpleMindMap — verification of the spec's claims against the source

A shallow embedding of the mind-map application's core (outline parser,
keyword classifier, tree↔graph mapper, keyboard structural editor and the
import/export codec layer) together with proofs and refutations of the
claims C1–C10.

Strings are modelled as `List Char` (`Str`); JavaScript's string methods
(`trim`, `split`, `includes`, `toLowerCase`, template ids) are embedded as
executable functions on `Str`.
-/

/-- Character-list model of a JavaScript string. -/
abbrev Str := List Char

/-- The characters matched by the JavaScript regex class `\s` (for the ASCII
range relevant here: space, tab, newline, carriage return, vertical tab,
form feed). -/
def isJsSpace (c : Char) : Bool :=
  c = ' ' || c = '\t' || c = '\n' || c = '\r' || c = '\x0b' || c = '\x0c'

/-- JavaScript `String.prototype.trim`: strip `\s` characters from both ends. -/
def jsTrim (s : Str) : Str :=
  ((s.dropWhile isJsSpace).reverse.dropWhile isJsSpace).reverse

/-- The leading-whitespace match of `line.match(/^(\s*)/)`. -/
def leadingWs (line : Str) : Str := line.takeWhile isJsSpace

/-- `replace(/\t/g, '    ')`: expand every tab to four spaces. -/
def expandTabs4 (s : Str) : Str :=
  s.flatMap fun c => if c = '\t' then [' ', ' ', ' ', ' '] else [c]

/-- `getIndentLevel` (src/app.js): count the line's leading whitespace with
each tab expanded to 4 spaces, and divide by 2 (flooring). -/
def getIndentLevel (line : Str) : Nat :=
  (expandTabs4 (leadingWs line)).length / 2

/-- The claim's measure: the length of the line's leading whitespace after
expanding each tab character to 4 spaces, i.e. each leading tab contributes
4 and every other leading whitespace character contributes 1. -/
def expandedWsLen (line : Str) : Nat :=
  ((leadingWs line).map fun c => if c = '\t' then 4 else 1).sum

theorem expandTabs4_length (s : Str) :
    (expandTabs4 s).length = (s.map fun c => if c = '\t' then 4 else 1).sum := by
  induction s with
  | nil => rfl
  | cons c cs ih =>
    simp only [expandTabs4] at ih ⊢
    by_cases h : c = '\t' <;> simp [h, ih] <;> omega

/-- **C8.** For every input line, the computed indentation level equals
`floor(n / 2)` where `n` is the length of the line's leading whitespace
after expanding each tab to 4 spaces. -/
theorem getIndentLevel_eq_floor_half_expanded (line : Str) :
    getIndentLevel line = expandedWsLen line / 2 := by
  unfold getIndentLevel expandedWsLen
  rw [expandTabs4_length]

/-! ## Classifier (src/app.js: KEYWORD_GROUPS, detectKeyword) -/

/-- Shorthand: a Lean string literal as a character list. -/
def sl (s : String) : Str := s.data

/-- JavaScript `toLowerCase` on the ASCII range used by the classifier. -/
def jsToLower (c : Char) : Char :=
  if 'A' ≤ c ∧ c ≤ 'Z' then Char.ofNat (c.toNat + 32) else c

/-- `text.toLowerCase()`. -/
def toLowerStr (s : Str) : Str := s.map jsToLower

/-- `hay.includes(needle)`: substring containment. -/
def includes (hay needle : Str) : Bool := decide (needle <:+: hay)

/-- `KEYWORD_GROUPS` (src/app.js), in declaration order — object string keys
enumerate in insertion order, so `Object.entries` yields exactly this list. -/
def KEYWORD_GROUPS : List (Str × List Str) :=
  [ (sl "Design",
      [sl "design", sl "ui", sl "ux", sl "mockup", sl "prototype",
       sl "wireframe", sl "sketch"]),
    (sl "Development",
      [sl "code", sl "develop", sl "build", sl "implement", sl "program",
       sl "create", sl "api"]),
    (sl "Testing",
      [sl "test", sl "qa", sl "verify", sl "validate", sl "debug", sl "check"]),
    (sl "Documentation",
      [sl "document", sl "write", sl "readme", sl "guide", sl "manual",
       sl "tutorial"]),
    (sl "Deployment",
      [sl "deploy", sl "release", sl "publish", sl "launch", sl "production"]) ]

/-- One step of the classifier's loop body: does some keyword of the group
occur in the lowercased text (`keywords.some(kw => lower.includes(kw))`)? -/
def groupHit (lower : Str) (g : Str × List Str) : Bool :=
  g.2.any fun kw => includes lower kw

/-- `detectKeyword` (src/app.js): return the first group, in declaration
order, with a keyword occurring in the lowercased text; `"Other"` if none. -/
def detectKeyword (text : Str) : Str :=
  let lower := toLowerStr text
  match KEYWORD_GROUPS.find? (groupHit lower) with
  | some g => g.1
  | none => sl "Other"

theorem find?_of_split {α : Type} (p : α → Bool) (pre : List α) (g : α)
    (post : List α) (hpre : ∀ x ∈ pre, p x = false) (hg : p g = true) :
    (pre ++ g :: post).find? p = some g := by
  induction pre with
  | nil => simp [List.find?, hg]
  | cons a rest ih =>
    have ha := hpre a (by simp)
    simp only [List.cons_append, List.find?, ha]
    exact ih fun x hx => hpre x (by simp [hx])

theorem find?_of_none {α : Type} (p : α → Bool) (l : List α)
    (h : ∀ x ∈ l, p x = false) : l.find? p = none := by
  induction l with
  | nil => rfl
  | cons a rest ih =>
    have ha := h a (by simp)
    simp only [List.find?, ha]
    exact ih fun x hx => h x (by simp [hx])

/-- **C9.** The classifier returns the first category, in declaration order
of `KEYWORD_GROUPS`, having some keyword that occurs case-insensitively in
the text, and `"Other"` when none matches; in particular a text containing
both a `"Design"` keyword and a `"Testing"` keyword resolves to `"Design"`,
the category declared first, regardless of keyword positions. -/
theorem detectKeyword_first_match (text : Str) :
    (∀ pre g post, KEYWORD_GROUPS = pre ++ g :: post →
        (∀ g' ∈ pre, ¬ ∃ kw ∈ g'.2, kw <:+: toLowerStr text) →
        (∃ kw ∈ g.2, kw <:+: toLowerStr text) →
        detectKeyword text = g.1)
    ∧ ((∀ g ∈ KEYWORD_GROUPS, ¬ ∃ kw ∈ g.2, kw <:+: toLowerStr text) →
        detectKeyword text = sl "Other")
    ∧ ((∃ kw ∈ (KEYWORD_GROUPS.get ⟨0, by decide⟩).2, kw <:+: toLowerStr text) →
        (∃ kw ∈ (KEYWORD_GROUPS.get ⟨2, by decide⟩).2, kw <:+: toLowerStr text) →
        detectKeyword text = sl "Design") := by
  have hit_iff : ∀ g, groupHit (toLowerStr text) g = true ↔
      ∃ kw ∈ g.2, kw <:+: toLowerStr text := by
    intro g
    simp [groupHit, includes, List.any_eq_true]
  refine ⟨?_, ?_, ?_⟩
  · intro pre g post hsplit hpre hg
    have : KEYWORD_GROUPS.find? (groupHit (toLowerStr text)) = some g := by
      rw [hsplit]
      refine find?_of_split _ _ _ _ ?_ ((hit_iff g).2 hg)
      intro x hx
      have := hpre x hx
      rcases h : groupHit (toLowerStr text) x with _ | _
      · rfl
      · exact absurd ((hit_iff x).1 h) this
    simp [detectKeyword, this]
  · intro hnone
    have : KEYWORD_GROUPS.find? (groupHit (toLowerStr text)) = none := by
      refine find?_of_none _ _ ?_
      intro x hx
      rcases h : groupHit (toLowerStr text) x with _ | _
      · rfl
      · exact absurd ((hit_iff x).1 h) (hnone x hx)
    simp [detectKeyword, this]
  · intro hdes _
    have : KEYWORD_GROUPS.find? (groupHit (toLowerStr text)) =
        some (KEYWORD_GROUPS.get ⟨0, by decide⟩) := by
      have := (hit_iff (KEYWORD_GROUPS.get ⟨0, by decide⟩)).2 hdes
      simp [KEYWORD_GROUPS, List.find?] at this ⊢
      simp [this]
    simp [detectKeyword, this]
    rfl

/-! ## Graph data model (vis.js nodes/edges as used by this application)

A `GNode` carries the fields the application reads or writes on a vis.js node
that any claim mentions: `id`, `label`, tooltip `title`, the reconstruction
side-channel `originalText`, hierarchy `level`, display `shape`
(`"dot"` for containers, `"box"` for leaves) and `color`. `title` and
`originalText` are `Option`s because nodes created by the keyboard editor or
the text importer do not set them (JavaScript `undefined`). Purely visual
fields that no claim mentions (font, margin, size, borderWidth,
widthConstraint) are not modelled. -/
structure GNode where
  id : Str
  label : Str
  title : Option Str := none
  originalText : Option Str := none
  level : Nat
  shape : Str
  color : Str := []
  deriving DecidableEq, Repr, Inhabited

/-- A vis.js edge: `{from, to, width}` (`from` is a Lean keyword, hence
`efrom`). The edge color is presentation-only and not modelled. -/
structure GEdge where
  efrom : Str
  eto : Str
  width : Nat := 2
  deriving DecidableEq, Repr, Inhabited

/-! ## Keyboard Controller (src/unnamed/part_000)

The controller's state: the two vis.js DataSets and the selected node id.
vis.js DataSet semantics used below: `get(id)` finds by id, `get({filter})`
filters in insertion order, `add` appends, `update` merges fields into the
item with the same id, and `nodes.remove(ids)` deletes the listed ids from
the *nodes* DataSet only — the edges DataSet is a separate collection and is
untouched by a node removal. -/
structure KState where
  nodes : List GNode
  edges : List GEdge
  selectedNodeId : Option Str
  deriving DecidableEq, Repr

/-- `networkData.nodes.get(id)`. -/
def dsGet (nodes : List GNode) (id : Str) : Option GNode :=
  nodes.find? fun n => n.id = id

/-- `nodes.update({id, shape, ...})`: merge the new shape into the node with
the given id (the other fields of the update call are visual only). -/
def dsUpdateShape (nodes : List GNode) (id : Str) (shape : Str) : List GNode :=
  nodes.map fun n => if n.id = id then { n with shape := shape } else n

/-- `task_${Date.now()}`: the freshly minted id, with the clock reading
passed in as a parameter. -/
def freshId (now : Str) : Str := sl "task_" ++ now

/-- `addChildNode` (src/unnamed/part_000 lines 105–158). Returns the state
unchanged when nothing is selected, the root is selected, or the selected id
has no node. -/
def addChildNode (now : Str) (st : KState) : KState :=
  match st.selectedNodeId with
  | none => st
  | some sel =>
    if sel = sl "root" then st
    else
      let newNodeId := freshId now
      match dsGet st.nodes sel with
      | none => st
      | some selectedNode =>
        let newNode : GNode :=
          { id := newNodeId, label := sl "New Task",
            level := selectedNode.level + 1, shape := sl "box",
            color := if selectedNode.color = [] then sl "#adb5bd"
                     else selectedNode.color }
        let nodes1 := st.nodes ++ [newNode]
        let edges1 := st.edges ++ [{ efrom := sel, eto := newNodeId, width := 2 }]
        let nodes2 :=
          if selectedNode.shape = sl "box" then
            dsUpdateShape nodes1 sel (sl "dot")
          else nodes1
        { nodes := nodes2, edges := edges1, selectedNodeId := some newNodeId }

/-- `addSiblingNode` (src/unnamed/part_000 lines 163–212). No-op when nothing
or the root is selected, or when the selected node has no incoming edge. -/
def addSiblingNode (now : Str) (st : KState) : KState :=
  match st.selectedNodeId with
  | none => st
  | some sel =>
    if sel = sl "root" then st
    else
      match (st.edges.filter fun e => e.eto = sel).head? with
      | none => st
      | some parentEdge =>
        let parentId := parentEdge.efrom
        let selectedNode := (dsGet st.nodes sel).getD default
        let newNodeId := freshId now
        let newNode : GNode :=
          { id := newNodeId, label := sl "New Task",
            level := selectedNode.level, shape := sl "box",
            color := if selectedNode.color = [] then sl "#adb5bd"
                     else selectedNode.color }
        { nodes := st.nodes ++ [newNode],
          edges := st.edges ++
            [{ efrom := parentId, eto := newNodeId,
               width := if selectedNode.level = 1 then 3 else 2 }],
          selectedNodeId := some newNodeId }

/-- `getAllDescendants` (src/unnamed/part_000 lines 264–276): transitive
traversal of outgoing edges. The JavaScript recursion diverges on a cyclic
edge set; the embedding takes a fuel bound (the callers below pass one that
a tree-shaped edge set never exhausts). -/
def getAllDescendants (edges : List GEdge) : Nat → Str → List Str
  | 0, _ => []
  | fuel + 1, nodeId =>
    (edges.filter fun e => e.efrom = nodeId).flatMap fun e =>
      e.eto :: getAllDescendants edges fuel e.eto

/-- `deleteNode` (src/unnamed/part_000 lines 217–257). Collects the selected
node and its descendants, removes them from the nodes DataSet
(`nodes.remove`), and — if the parent has no more outgoing edges and is not
the root — flips the parent back to a box. The edges DataSet is never
written. -/
def deleteNode (st : KState) : KState :=
  match st.selectedNodeId with
  | none => st
  | some sel =>
    if sel = sl "root" then st
    else
      let nodesToDelete := getAllDescendants st.edges st.edges.length sel ++ [sel]
      let parentEdge := (st.edges.filter fun e => e.eto = sel).head?
      let nodes1 := st.nodes.filter fun n => ¬ n.id ∈ nodesToDelete
      let nodes2 :=
        match parentEdge with
        | none => nodes1
        | some pe =>
          let parentId := pe.efrom
          let parentChildren := st.edges.filter fun e => e.efrom = parentId
          if parentChildren.length = 0 ∧ parentId ≠ sl "root" then
            dsUpdateShape nodes1 parentId (sl "box")
          else nodes1
      { nodes := nodes2, edges := st.edges, selectedNodeId := none }

/-- **C10.** The interactive add-child operation is a silent no-op whenever
no node is selected or the root node is selected: the state (nodes, edges,
and selection) is returned unchanged, so no new top-level branch can be
added to the root through the keyboard editor. -/
theorem addChildNode_noop_on_root_or_none (now : Str) (st : KState)
    (h : st.selectedNodeId = none ∨ st.selectedNodeId = some (sl "root")) :
    addChildNode now st = st := by
  rcases h with h | h <;> simp [addChildNode, h]

/-- A one-node state with the root selected, for the C10 witness. -/
def rootOnlyState : KState where
  nodes := [{ id := sl "root", label := sl "Mind Map", level := 0,
              shape := sl "dot" }]
  edges := []
  selectedNodeId := some (sl "root")

/-- Witness for C10: on a concrete one-node state with the root selected,
`addChildNode` returns the state unchanged. -/
theorem addChildNode_noop_on_root_or_none_witness :
    addChildNode (sl "17") rootOnlyState = rootOnlyState :=
  addChildNode_noop_on_root_or_none (sl "17") rootOnlyState (Or.inr rfl)

/-! ### The delete operation and the edges DataSet (C1, C2)

`deleteNode` calls `this.networkData.nodes.remove(nodesToDelete)` and never
writes the edges DataSet, so every edge incident to a removed node stays in
the document; consequently the `parentChildren.length === 0` test that
should flip a childless parent back to a box can never succeed (the edge
from the parent to the just-deleted child is still counted). -/

/-- A document whose node `n` has two children and one grandchild:
`root → n`, `n → c1`, `n → c2`, `c1 → g`, with `n` selected. -/
def twoChildDoc : KState where
  nodes :=
    [ { id := sl "root", label := sl "Mind Map", level := 0, shape := sl "dot" },
      { id := sl "n", label := sl "n", level := 1, shape := sl "dot" },
      { id := sl "c1", label := sl "c1", level := 2, shape := sl "dot" },
      { id := sl "c2", label := sl "c2", level := 2, shape := sl "box" },
      { id := sl "g", label := sl "g", level := 3, shape := sl "box" } ]
  edges :=
    [ { efrom := sl "root", eto := sl "n", width := 3 },
      { efrom := sl "n", eto := sl "c1" },
      { efrom := sl "n", eto := sl "c2" },
      { efrom := sl "c1", eto := sl "g" } ]
  selectedNodeId := some (sl "n")

/-- **C1 (failing-input evaluation).** Deleting the node with two children
and one grandchild removes exactly those 4 nodes from the node collection,
but the edge collection is returned *unchanged*: all four edges incident to
the removed nodes survive, so the document is not a tree on its remaining
nodes afterwards (the claim says the incident edges are removed
atomically). -/
theorem deleteNode_keeps_incident_edges :
    (deleteNode twoChildDoc).nodes.map (fun n => n.id) = [sl "root"] ∧
    (deleteNode twoChildDoc).edges = twoChildDoc.edges ∧
    twoChildDoc.edges.length = 4 := by
  decide

/-- A document `root → p → c` where `c` is the only child of `p`, with `c`
selected. -/
def onlyChildDoc : KState where
  nodes :=
    [ { id := sl "root", label := sl "Mind Map", level := 0, shape := sl "dot" },
      { id := sl "p", label := sl "p", level := 1, shape := sl "dot" },
      { id := sl "c", label := sl "c", level := 2, shape := sl "box" } ]
  edges :=
    [ { efrom := sl "root", eto := sl "p", width := 3 },
      { efrom := sl "p", eto := sl "c" } ]
  selectedNodeId := some (sl "c")

/-- **C2 (failing-input evaluation).** Deleting a node's only remaining
child does *not* change the parent's shape back to a box: after deleting
`c`, its parent `p` has no surviving child node, yet its shape is still
`"dot"` — the transition the claim requires cannot fire because the edge
`p → c` is still in the (unwritten) edges DataSet, so
`parentChildren.length` is 1, not 0. -/
theorem deleteNode_parent_shape_not_reverted :
    ((deleteNode onlyChildDoc).nodes.map fun n => n.id) = [sl "root", sl "p"] ∧
    (dsGet (deleteNode onlyChildDoc).nodes (sl "p")).map (fun n => n.shape) =
      some (sl "dot") ∧
    ((deleteNode onlyChildDoc).edges.filter fun e =>
        e.efrom = sl "p" ∧ dsGet (deleteNode onlyChildDoc).nodes e.eto ≠ none) =
      [] := by
  decide

/-! ## Codec layer (src/import-export.js)

The codec functions take already-normalized node/edge lists (the module's
`data.nodes.get ? data.nodes.get() : data.nodes` duck-typing turns either a
live DataSet or a plain array into a plain array; the embedding works on the
plain arrays). -/

/-- The metadata bag passed around by the app (`{layout, autoGroup,
inputText}`), or the empty object `{}` the codec substitutes for a missing
bag. -/
inductive MetaBag where
  | emptyBag
  | bag (layout : Str) (autoGroup : Bool) (inputText : Str)
  deriving DecidableEq, Repr

/-- The `data` argument of the exporters: node and edge collections with an
optional metadata bag (`data.metadata` may be absent). -/
structure MindMapData where
  nodes : List GNode
  edges : List GEdge
  metadata : Option MetaBag
  deriving DecidableEq, Repr

/-- What the import functions return on success (`{nodes, edges,
metadata}`, metadata never absent). -/
structure ImportResult where
  nodes : List GNode
  edges : List GEdge
  metadata : MetaBag
  deriving DecidableEq, Repr

/-- The object serialized by `exportToJSON`: version/format/created header
plus the collections and the metadata bag (`data.metadata || {}`). -/
structure ExportedJSON where
  version : Str
  format : Str
  created : Str
  nodes : List GNode
  edges : List GEdge
  metadata : MetaBag
  deriving DecidableEq, Repr

/-- `exportToJSON` (src/import-export.js lines 12–23), up to the
`JSON.stringify` host call: the object handed to the serializer. `created`
is the external clock reading (`new Date().toISOString()`). -/
def exportToJSON (created : Str) (d : MindMapData) : ExportedJSON :=
  { version := sl "1.0", format := sl "mindmap-json", created := created,
    nodes := d.nodes, edges := d.edges,
    metadata := d.metadata.getD .emptyBag }

/-- The shape `JSON.parse` hands to `importFromJSON`: each field the
validator looks at may be absent in a foreign payload. -/
structure ParsedJSON where
  nodes : Option (List GNode)
  edges : Option (List GEdge)
  metadata : Option MetaBag
  deriving DecidableEq, Repr

/-- The host JSON codec applied to an exported object:
`JSON.parse(JSON.stringify(exportData))` is the identity on the JSON value
tree, and the exported object always carries `nodes`, `edges` and
`metadata` fields, so parsing the exported string yields them all present. -/
def parseOfExported (e : ExportedJSON) : ParsedJSON :=
  { nodes := some e.nodes, edges := some e.edges, metadata := some e.metadata }

/-- `importFromJSON` (src/import-export.js lines 136–154): reject a payload
with a missing (JavaScript-falsy) `nodes` or `edges` field — a present
array, even `[]`, is truthy — otherwise return the collections and
`data.metadata || {}`. The internal `throw` is caught by the function's own
`try/catch` and surfaces as `null`. -/
def importFromJSON (p : ParsedJSON) : Option ImportResult :=
  match p.nodes, p.edges with
  | some ns, some es =>
    some { nodes := ns, edges := es, metadata := p.metadata.getD .emptyBag }
  | _, _ => none

/-- **C7.** Exporting to the structured JSON format and importing the
result back succeeds and is a no-op on the node and edge content and on the
metadata bag: the import returns exactly the exported nodes, edges and
metadata (which are the input's nodes, edges, and its metadata with an
absent bag defaulted to the empty bag on export). -/
theorem exportToJSON_importFromJSON_roundtrip (created : Str)
    (d : MindMapData) :
    importFromJSON (parseOfExported (exportToJSON created d)) =
      some { nodes := (exportToJSON created d).nodes,
             edges := (exportToJSON created d).edges,
             metadata := (exportToJSON created d).metadata } ∧
    (exportToJSON created d).nodes = d.nodes ∧
    (exportToJSON created d).edges = d.edges ∧
    (exportToJSON created d).metadata = d.metadata.getD .emptyBag := by
  refine ⟨rfl, rfl, rfl, rfl⟩

/-! ### FreeMind (hierarchical XML) import -/

/-- An XML element as produced by the host `DOMParser`: tag, attributes,
child elements (text content is irrelevant to this importer). -/
inductive Xml where
  | elem (tag : Str) (attrs : List (Str × Str)) (children : List Xml)

/-- The element's tag. -/
def Xml.tag : Xml → Str
  | .elem t _ _ => t

/-- The element's child elements. -/
def Xml.children : Xml → List Xml
  | .elem _ _ cs => cs

theorem sizeOf_filter_le {alpha : Type} [SizeOf alpha] (p : alpha → Bool)
    (l : List alpha) : sizeOf (l.filter p) ≤ sizeOf l := by
  induction l with
  | nil => simp
  | cons a rest ih =>
    simp only [List.filter]
    cases p a <;> simp <;> omega

theorem sizeOf_children_lt (x : Xml) : sizeOf x.children < sizeOf x := by
  cases x with
  | elem tag attrs cs => simp [Xml.children]

/-- `getAttribute(name) || dflt`: a missing attribute is `null` and an empty
one is `''`, both falsy. -/
def xmlAttrOr (x : Xml) (name dflt : Str) : Str :=
  match x with
  | .elem _ attrs _ =>
    match attrs.find? (fun a => a.1 = name) with
    | some a => if a.2 = [] then dflt else a.2
    | none => dflt

mutual

/-- `querySelector('map > node')` walking one element whose parent has tag
`ptag`: the first element in document (preorder) order whose tag is `node`
and whose parent's tag is `map`. -/
def findMapNode (ptag : Str) (x : Xml) : Option Xml :=
  match x with
  | .elem tag attrs children =>
    if tag = sl "node" ∧ ptag = sl "map" then some (.elem tag attrs children)
    else findMapNodeList tag children

/-- `findMapNode` over a child list, first hit wins. -/
def findMapNodeList (ptag : Str) : List Xml → Option Xml
  | [] => none
  | c :: cs =>
    match findMapNode ptag c with
    | some r => some r
    | none => findMapNodeList ptag cs

end

mutual

/-- `parseNode` (src/import-export.js lines 253–289): emit the node for this
element (the level-0 element becomes the fixed root), an edge from its
parent when below the root, and recurse into the element's *direct* `node`
children (`:scope > node` matches one level only). Returns the emitted
nodes, edges, and the advanced id counter. -/
def parseFMNode (x : Xml) (parentId : Str) (level : Nat) (nid : Nat) :
    List GNode × List GEdge × Nat :=
  let text := xmlAttrOr x (sl "TEXT") (sl "Node")
  let id := if level = 0 then sl "root" else freshId (sl (toString nid))
  let nid1 := if level = 0 then nid else nid + 1
  let node : GNode :=
    if level = 0 then
      { id := sl "root", label := text, level := 0, shape := sl "dot",
        color := sl "#F59E0B" }
    else
      { id := id, label := text, level := level, shape := sl "box" }
  let edges0 : List GEdge :=
    if level = 0 then []
    else [{ efrom := parentId, eto := id,
            width := if level = 1 then 3 else 2 }]
  let childNodes := x.children.filter fun c => c.tag = sl "node"
  let (ns, es, nid2) := parseFMNodeList childNodes id (level + 1) nid1
  (node :: ns, edges0 ++ es, nid2)
termination_by sizeOf x
decreasing_by
  calc sizeOf (x.children.filter fun c => c.tag = sl "node")
      ≤ sizeOf x.children := sizeOf_filter_le _ _
    _ < sizeOf x := sizeOf_children_lt x

/-- `childNodes.forEach(child => parseNode(child, id, level + 1))`. -/
def parseFMNodeList (xs : List Xml) (parentId : Str) (level : Nat)
    (nid : Nat) : List GNode × List GEdge × Nat :=
  match xs with
  | [] => ([], [], nid)
  | x :: rest =>
    let (ns, es, nid1) := parseFMNode x parentId level nid
    let (ns2, es2, nid2) := parseFMNodeList rest parentId level nid1
    (ns ++ ns2, es ++ es2, nid2)
termination_by sizeOf xs
decreasing_by
  · simp
    omega
  · simp

end

/-- `importFromFreeMind` (src/import-export.js lines 237–301). The input is
the host `DOMParser` result: `none` models a `parsererror` document (the
code then throws into its own catch and returns `null`); otherwise the
parsed root element. When `querySelector('map > node')` finds no root
`<node>`, `parseNode` never runs and the function returns the accumulated —
empty — collections, not `null`. -/
def importFromFreeMind (doc : Option Xml) : Option ImportResult :=
  match doc with
  | none => none
  | some root =>
    match findMapNode (sl "") root with
    | none => some { nodes := [], edges := [], metadata := .emptyBag }
    | some rootNode =>
      let (ns, es, _) := parseFMNode rootNode (sl "") 0 0
      some { nodes := ns, edges := es, metadata := .emptyBag }

/-- **C5 counterexample.** A well-formed document whose root `<node>` is
missing — `<map version="1.0.1"></map>` — does *not* yield the null failure
sentinel: the importer returns a non-null result with empty node and edge
collections. -/
theorem importFromFreeMind_missing_root_not_null :
    importFromFreeMind
        (some (Xml.elem (sl "map") [(sl "version", sl "1.0.1")] [])) =
      some { nodes := [], edges := [], metadata := .emptyBag } ∧
    (some { nodes := [], edges := [], metadata := .emptyBag }
        : Option ImportResult) ≠ none := by
  exact ⟨rfl, Option.some_ne_none _⟩

/-- **C5 (amended).** Unparseable markup (a `DOMParser` `parsererror`
document) yields the null sentinel and never a thrown exception, but a
well-formed document whose root `<node>` element is missing yields a
*non-null* result holding empty node and edge collections (and empty
metadata), also without a thrown exception — the embedding of the importer
is a total function into an `Option`. -/
theorem importFromFreeMind_error_behavior :
    importFromFreeMind none = none ∧
    ∀ x : Xml, findMapNode (sl "") x = none →
      importFromFreeMind (some x) =
        some { nodes := [], edges := [], metadata := .emptyBag } := by
  refine ⟨rfl, ?_⟩
  intro x hx
  simp [importFromFreeMind, hx]

/-! ## Leaf label wrapping (src/app.js, inside processTask, lines 673–701) -/

/-- `text.split(' ')` accumulator: split on every single space character, so
consecutive spaces produce empty words and `''.split(' ')` is `['']`. -/
def splitOnSpaceAux : Str → Str → List Str
  | [], acc => [acc.reverse]
  | c :: cs, acc =>
    if c = ' ' then acc.reverse :: splitOnSpaceAux cs []
    else splitOnSpaceAux cs (c :: acc)

/-- JavaScript `text.split(' ')`. -/
def splitOnSpace (s : Str) : List Str := splitOnSpaceAux s []

/-- JavaScript `array.join(sep)` for a one-character separator. -/
def joinSep (sep : Char) : List Str → Str
  | [] => []
  | [l] => l
  | l :: ls => l ++ sep :: joinSep sep ls

/-- The word-packing loop of `processTask`: state `(lines, currentLine)`;
each word either extends the current line (when the trimmed extension stays
within 20 characters) or pushes the non-empty current line and starts a new
one; the loop breaks as soon as two lines have been pushed. -/
def wrapWords : List Str → List Str × Str → List Str × Str
  | [], st => st
  | w :: ws, (lines, cur) =>
    let st1 :=
      if (jsTrim (cur ++ ' ' :: w)).length ≤ 20 then
        (lines, jsTrim (cur ++ ' ' :: w))
      else if cur = [] then (lines, w)
      else (lines ++ [cur], w)
    if 2 ≤ st1.1.length then st1 else wrapWords ws st1

/-- The produced lines: run the loop from the empty state, then push the
final non-empty current line (`if (currentLine && lines.length < 3)`). -/
def leafWrapLines (words : List Str) : List Str :=
  let st := wrapWords words ([], [])
  if st.2 ≠ [] ∧ st.1.length < 3 then st.1 ++ [st.2] else st.1

/-- `lastLine.substring(0, Math.max(0, lastLine.length - 3)) + '...'`. -/
def truncateLast3 (l : Str) : Str := l.take (l.length - 3) ++ sl "..."

/-- Replace the last produced line by its ellipsis-truncated form (the
JavaScript writes `lines[lines.length - 1]`; on an empty array it would
fault, which is unreachable for the non-blank texts `processTask` sees). -/
def ellipsizeLast : List Str → List Str
  | [] => []
  | l :: ls => (l :: ls).dropLast ++ [truncateLast3 ((l :: ls).getLast (by simp))]

/-- The leaf branch of `processTask`'s `displayLabel` computation: wrap the
space-split words, join up to 3 lines with newlines, and — whenever the
joined lines split back into fewer space-separated tokens than the text
had — replace the last line's trailing 3 characters by an ellipsis. -/
def leafLabel (text : Str) : Str :=
  let words := splitOnSpace text
  let lines := leafWrapLines words
  if (splitOnSpace (joinSep ' ' lines)).length < words.length then
    joinSep '\n' (ellipsizeLast lines)
  else
    joinSep '\n' (lines.take 3)

/-- The container branch of `processTask`'s `displayLabel` computation:
single line, truncated to 37 characters plus an ellipsis when the text
exceeds 40 characters. -/
def containerLabel (text : Str) : Str :=
  if 40 < text.length then text.take 37 ++ sl "..." else text

/-- `displayLabel` as `processTask` assigns it (the italic `<i>` wrapper is
driven by an external toolbar setting and is outside the claims). -/
def displayLabel (hasChildren : Bool) (text : Str) : Str :=
  if hasChildren then containerLabel text else leafLabel text

/-! ### C4: properties of the wrapping -/

/-- A whitespace-free, non-empty word (what `split(' ')` yields on a
single-spaced trimmed text). -/
def cleanWord (w : Str) : Prop := w ≠ [] ∧ ∀ c ∈ w, isJsSpace c = false

/-- A produced line: non-empty, no whitespace at either end, and every
character either a plain space or a non-whitespace character. -/
def lineOk (s : Str) : Prop :=
  s ≠ [] ∧ (∀ c, s.head? = some c → isJsSpace c = false) ∧
  (∀ c, s.getLast? = some c → isJsSpace c = false) ∧
  (∀ c ∈ s, c = ' ' ∨ isJsSpace c = false)

theorem cleanWord_lineOk {w : Str} (h : cleanWord w) : lineOk w := by
  obtain ⟨hne, hall⟩ := h
  refine ⟨hne, ?_, ?_, fun c hc => Or.inr (hall c hc)⟩
  · intro c hc
    exact hall c (List.mem_of_mem_head? hc)
  · intro c hc
    exact hall c (List.mem_of_mem_getLast? hc)

theorem dropWhile_eq_self_of_head {p : Char → Bool} {s : Str}
    (h : ∀ c, s.head? = some c → p c = false) : s.dropWhile p = s := by
  cases s with
  | nil => rfl
  | cons a rest =>
    have := h a rfl
    simp [List.dropWhile, this]

theorem jsTrim_of_lineOk {s : Str} (h : lineOk s) : jsTrim s = s := by
  obtain ⟨hne, hhead, hlast, _⟩ := h
  unfold jsTrim
  rw [dropWhile_eq_self_of_head hhead]
  rw [dropWhile_eq_self_of_head (by
    intro c hc
    exact hlast c (by rwa [List.head?_reverse] at hc))]
  exact List.reverse_reverse s

theorem jsTrim_space_cons {w : Str} (h : lineOk w) : jsTrim (' ' :: w) = w := by
  unfold jsTrim
  have h1 : (' ' :: w).dropWhile isJsSpace = w.dropWhile isJsSpace := by
    simp [List.dropWhile, isJsSpace]
  rw [h1, dropWhile_eq_self_of_head h.2.1,
    dropWhile_eq_self_of_head (by
      intro c hc
      exact h.2.2.1 c (by rwa [List.head?_reverse] at hc))]
  exact List.reverse_reverse w

theorem lineOk_extend {cur w : Str} (hc : lineOk cur) (hw : cleanWord w) :
    lineOk (cur ++ ' ' :: w) := by
  obtain ⟨hne, hhead, hlast, hall⟩ := hc
  obtain ⟨wne, wall⟩ := hw
  refine ⟨by simp, ?_, ?_, ?_⟩
  · intro c hcc
    rw [List.head?_append_of_ne_nil _ hne] at hcc
    exact hhead c hcc
  · intro c hcc
    rw [List.getLast?_append_cons] at hcc
    have hw2 : (' ' :: w).getLast? = w.getLast? := by
      cases w with
      | nil => exact absurd rfl wne
      | cons a rest => exact List.getLast?_cons_cons
    rw [hw2] at hcc
    exact wall c (List.mem_of_mem_getLast? hcc)
  · intro c hcc
    rcases List.mem_append.1 hcc with h | h
    · exact hall c h
    · rcases List.mem_cons.1 h with h | h
      · exact Or.inl h
      · exact Or.inr (wall c h)

theorem joinSep_eq_flat (sep : Char) (w : Str) (ws : List Str) :
    joinSep sep (w :: ws) = w ++ ws.flatMap fun x => sep :: x := by
  induction ws generalizing w with
  | nil => simp [joinSep]
  | cons v vs ih =>
    show w ++ sep :: joinSep sep (v :: vs) = _
    rw [ih v]
    simp

theorem splitOnSpaceAux_ne_nil (s : Str) (acc : Str) :
    splitOnSpaceAux s acc ≠ [] := by
  induction s generalizing acc with
  | nil => simp [splitOnSpaceAux]
  | cons c cs ih =>
    by_cases h : c = ' ' <;> simp [splitOnSpaceAux, h]
    exact ih (c :: acc)

theorem joinSep_splitOnSpaceAux (s : Str) (acc : Str) :
    joinSep ' ' (splitOnSpaceAux s acc) = acc.reverse ++ s := by
  induction s generalizing acc with
  | nil => simp [splitOnSpaceAux, joinSep]
  | cons c cs ih =>
    by_cases h : c = ' '
    · subst h
      simp only [splitOnSpaceAux, if_pos rfl]
      have hne := splitOnSpaceAux_ne_nil cs ([] : Str)
      rcases hsplit : splitOnSpaceAux cs [] with _ | ⟨l, ls⟩
      · exact absurd hsplit hne
      · show acc.reverse ++ ' ' :: joinSep ' ' (l :: ls) = _
        rw [← hsplit, ih []]
        simp
    · simp only [splitOnSpaceAux, if_neg h]
      rw [ih (c :: acc)]
      simp

/-- `split(' ')` then `join(' ')` is the identity. -/
theorem joinSep_splitOnSpace (s : Str) : joinSep ' ' (splitOnSpace s) = s := by
  unfold splitOnSpace
  rw [joinSep_splitOnSpaceAux]
  rfl

theorem splitOnSpace_ne_nil (s : Str) : splitOnSpace s ≠ [] :=
  splitOnSpaceAux_ne_nil s []

/-- Extending the last entry of a joined list extends the join. -/
theorem joinSep_append_last (sep : Char) (xs : List Str) (y z : Str) :
    joinSep sep (xs ++ [y ++ z]) = joinSep sep (xs ++ [y]) ++ z := by
  induction xs with
  | nil => simp [joinSep]
  | cons x rest ih =>
    rcases rest with _ | ⟨r, rs⟩
    · show x ++ sep :: joinSep sep [y ++ z] = (x ++ sep :: joinSep sep [y]) ++ z
      simp [joinSep]
    · show x ++ sep :: joinSep sep ((r :: rs) ++ [y ++ z]) = _
      rw [ih]
      show _ = (x ++ sep :: joinSep sep ((r :: rs) ++ [y])) ++ z
      simp

/-- The first loop iteration from the empty state: whether or not the word
fits, the state becomes `([], w)`. -/
theorem wrapWords_first {w : Str} (hw : cleanWord w) (ws : List Str) :
    wrapWords (w :: ws) ([], []) = wrapWords ws ([], w) := by
  have htrim : jsTrim (' ' :: w) = w := jsTrim_space_cons (cleanWord_lineOk hw)
  by_cases hlen : w.length ≤ 20 <;>
    simp [wrapWords, htrim, hlen]

/-- When every remaining word still fits on the current line, the loop just
accumulates them all onto it. -/
theorem wrapWords_all_fit (ws : List Str) (cur : Str) (hcur : lineOk cur)
    (hws : ∀ w ∈ ws, cleanWord w)
    (hlen : (cur ++ ws.flatMap fun w => ' ' :: w).length ≤ 20) :
    wrapWords ws ([], cur) = ([], cur ++ ws.flatMap fun w => ' ' :: w) := by
  induction ws generalizing cur with
  | nil => simp [wrapWords]
  | cons w rest ih =>
    have hw := hws w (by simp)
    have hext : lineOk (cur ++ ' ' :: w) := lineOk_extend hcur hw
    have htrim : jsTrim (cur ++ ' ' :: w) = cur ++ ' ' :: w := jsTrim_of_lineOk hext
    have hfit : (cur ++ ' ' :: w).length ≤ 20 := by
      refine le_trans ?_ hlen
      simp
    have hrec := ih (cur ++ ' ' :: w) hext (fun x hx => hws x (by simp [hx]))
      (by simpa using hlen)
    simp only [wrapWords, htrim, hfit, if_true, List.length_nil]
    rw [if_neg (by omega), hrec]
    simp

theorem no_newline_of_lineOk {l : Str} (h : lineOk l) : ¬ '\n' ∈ l := by
  intro hmem
  rcases h.2.2.2 '\n' hmem with h1 | h1
  · exact absurd h1 (by decide)
  · exact absurd h1 (by simp [isJsSpace])

/-- Loop invariant of the word-packing loop, for whitespace-free words of at
most 20 characters: the current line and all pushed lines stay well-formed
and within 20 characters, and the loop either stops with exactly two pushed
lines, or consumes every word while conserving the space-joined content. -/
theorem wrapWords_inv (ws : List Str) (lines : List Str) (cur : Str)
    (hws : ∀ w ∈ ws, cleanWord w ∧ w.length ≤ 20)
    (hcur : lineOk cur) (hcl : cur.length ≤ 20)
    (hlines : ∀ l ∈ lines, l.length ≤ 20 ∧ lineOk l)
    (hlen : lines.length ≤ 1) :
    lineOk (wrapWords ws (lines, cur)).2 ∧
    (wrapWords ws (lines, cur)).2.length ≤ 20 ∧
    (∀ l ∈ (wrapWords ws (lines, cur)).1, l.length ≤ 20 ∧ lineOk l) ∧
    ((wrapWords ws (lines, cur)).1.length = 2 ∨
      ((wrapWords ws (lines, cur)).1.length ≤ 1 ∧
        joinSep ' ' ((wrapWords ws (lines, cur)).1 ++ [(wrapWords ws (lines, cur)).2]) =
          joinSep ' ' (lines ++ [cur]) ++ ws.flatMap fun w => ' ' :: w)) := by
  induction ws generalizing lines cur with
  | nil =>
    refine ⟨hcur, hcl, hlines, Or.inr ⟨hlen, ?_⟩⟩
    simp [wrapWords]
  | cons w rest ih =>
    obtain ⟨hw, hw20⟩ := hws w (by simp)
    have hrest : ∀ x ∈ rest, cleanWord x ∧ x.length ≤ 20 :=
      fun x hx => hws x (by simp [hx])
    have hcne : cur ≠ [] := hcur.1
    by_cases hfit : (jsTrim (cur ++ ' ' :: w)).length ≤ 20
    · -- the word extends the current line
      have htrim : jsTrim (cur ++ ' ' :: w) = cur ++ ' ' :: w :=
        jsTrim_of_lineOk (lineOk_extend hcur hw)
      have hstep : wrapWords (w :: rest) (lines, cur) =
          wrapWords rest (lines, cur ++ ' ' :: w) := by
        simp only [wrapWords]
        rw [if_pos hfit, htrim,
          if_neg (by simpa using (show ¬ 2 ≤ lines.length by omega))]
      rw [hstep]
      have hres := ih lines (cur ++ ' ' :: w) hrest (lineOk_extend hcur hw)
        (htrim ▸ hfit) hlines hlen
      refine ⟨hres.1, hres.2.1, hres.2.2.1, ?_⟩
      rcases hres.2.2.2 with h2 | ⟨h2a, h2b⟩
      · exact Or.inl h2
      · refine Or.inr ⟨h2a, ?_⟩
        rw [h2b, joinSep_append_last]
        simp
    · -- the word starts a new line; the non-empty current line is pushed
      rcases Nat.lt_or_ge lines.length 1 with hsz | hsz
      · -- lines was empty: push and continue
        have hlnil : lines = [] := List.length_eq_zero.1 (by omega)
        subst hlnil
        have hstep1 : wrapWords (w :: rest) ([], cur) =
            wrapWords rest ([cur], w) := by
          simp only [wrapWords]
          rw [if_neg hfit, if_neg hcne, if_neg (by simp)]
          simp
        rw [hstep1]
        have hres := ih [cur] w (by
          intro x hx
          exact hrest x hx) (cleanWord_lineOk hw) hw20
          (by
            intro l hl
            rcases List.mem_singleton.1 hl with h
            subst h
            exact ⟨hcl, hcur⟩) (by simp)
        refine ⟨hres.1, hres.2.1, hres.2.2.1, ?_⟩
        rcases hres.2.2.2 with h2 | ⟨h2a, h2b⟩
        · exact Or.inl h2
        · refine Or.inr ⟨h2a, ?_⟩
          rw [h2b]
          show joinSep ' ' ([cur] ++ [w]) ++ _ = _
          have : joinSep ' ' ([cur] ++ [w]) = joinSep ' ' [cur] ++ ' ' :: w := by
            simp [joinSep]
          rw [this]
          simp
      · -- lines already had one entry: the push makes two and the loop breaks
        have hsz1 : lines.length = 1 := by omega
        have hstep1 : wrapWords (w :: rest) (lines, cur) = (lines ++ [cur], w) := by
          simp only [wrapWords]
          rw [if_neg hfit, if_neg hcne, if_pos (by simp [hsz1])]
        rw [hstep1]
        refine ⟨cleanWord_lineOk hw, hw20, ?_, Or.inl (by simp [hsz1])⟩
        intro l hl
        rcases List.mem_append.1 hl with h | h
        · exact hlines l h
        · rcases List.mem_singleton.1 h with h
          subst h
          exact ⟨hcl, hcur⟩

theorem count_joinSep_newline (ls : List Str) (hne : ls ≠ [])
    (h : ∀ l ∈ ls, ¬ '\n' ∈ l) :
    (joinSep '\n' ls).count '\n' = ls.length - 1 := by
  induction ls with
  | nil => exact absurd rfl hne
  | cons l rest ih =>
    rcases rest with _ | ⟨r, rs⟩
    · show (joinSep '\n' [l]).count '\n' = 0
      simp [joinSep, List.count_eq_zero]
      exact h l (by simp)
    · show (l ++ '\n' :: joinSep '\n' (r :: rs)).count '\n' = _
      rw [List.count_append, List.count_cons]
      have h1 : l.count '\n' = 0 := List.count_eq_zero.2 (h l (by simp))
      rw [h1, ih (by simp) (fun x hx => h x (by simp [hx]))]
      simp

theorem suffix_joinSep_last (sep : Char) (xs : List Str) (y : Str) :
    y <:+ joinSep sep (xs ++ [y]) := by
  induction xs with
  | nil => simp [joinSep]
  | cons x rest ih =>
    have : joinSep sep ((x :: rest) ++ [y]) =
        x ++ sep :: joinSep sep (rest ++ [y]) := by
      rcases rest with _ | ⟨r, rs⟩ <;> rfl
    rw [this]
    refine ih.trans ?_
    have h1 : joinSep sep (rest ++ [y]) <:+ sep :: joinSep sep (rest ++ [y]) :=
      List.suffix_cons sep _
    exact h1.trans (List.suffix_append x _)

theorem splitOnSpace_cons_exists (text : Str) :
    ∃ w0 ws, splitOnSpace text = w0 :: ws := by
  rcases h : splitOnSpace text with _ | ⟨a, b⟩
  · exact absurd h (splitOnSpace_ne_nil text)
  · exact ⟨a, b, rfl⟩

theorem leafLabel_fits (text : Str)
    (h1 : ∀ w ∈ splitOnSpace text, cleanWord w)
    (h2 : text.length ≤ 20) :
    leafLabel text = text := by
  obtain ⟨w0, ws, hsplit⟩ := splitOnSpace_cons_exists text
  have hw0 : cleanWord w0 := h1 w0 (by simp [hsplit])
  have hws : ∀ w ∈ ws, cleanWord w := fun w hw => h1 w (by simp [hsplit, hw])
  have htext : w0 ++ ws.flatMap (fun x => ' ' :: x) = text := by
    have h3 := joinSep_splitOnSpace text
    rw [hsplit, joinSep_eq_flat] at h3
    exact h3
  have hrun : wrapWords (splitOnSpace text) ([], []) = ([], text) := by
    rw [hsplit, wrapWords_first hw0,
      wrapWords_all_fit ws w0 (cleanWord_lineOk hw0) hws
        (by rw [htext]; exact h2), htext]
  have htne : text ≠ [] := by
    intro h
    have := htext
    rw [h] at this
    exact hw0.1 (by
      have := List.append_eq_nil.1 this
      exact this.1)
  have hlines : leafWrapLines (splitOnSpace text) = [text] := by
    unfold leafWrapLines
    rw [hrun]
    simp [htne]
  show (if (splitOnSpace (joinSep ' ' (leafWrapLines (splitOnSpace text)))).length
        < (splitOnSpace text).length then
      joinSep '\n' (ellipsizeLast (leafWrapLines (splitOnSpace text)))
    else joinSep '\n' (List.take 3 (leafWrapLines (splitOnSpace text)))) = text
  rw [hlines]
  have hjoin : joinSep ' ' [text] = text := rfl
  rw [hjoin, if_neg (lt_irrefl _)]
  rfl

theorem leafLabel_61_wraps (text : Str)
    (h1 : ∀ w ∈ splitOnSpace text, cleanWord w ∧ w.length ≤ 20)
    (h2 : text.length = 61) :
    (leafWrapLines (splitOnSpace text)).length = 3 ∧
    (∀ l ∈ leafWrapLines (splitOnSpace text), lineOk l) := by
  obtain ⟨w0, ws, hsplit⟩ := splitOnSpace_cons_exists text
  obtain ⟨hw0, hw020⟩ := h1 w0 (by simp [hsplit])
  have hws : ∀ w ∈ ws, cleanWord w ∧ w.length ≤ 20 :=
    fun w hw => h1 w (by simp [hsplit, hw])
  have htext : w0 ++ ws.flatMap (fun x => ' ' :: x) = text := by
    have h3 := joinSep_splitOnSpace text
    rw [hsplit, joinSep_eq_flat] at h3
    exact h3
  have hinv := wrapWords_inv ws [] w0 hws (cleanWord_lineOk hw0) hw020
    (by intro l hl; exact absurd hl (List.not_mem_nil l)) (by simp)
  obtain ⟨hok2, hlen2, hlinesok, hdisj⟩ := hinv
  have hfirst : wrapWords (splitOnSpace text) ([], []) = wrapWords ws ([], w0) := by
    rw [hsplit, wrapWords_first hw0]
  have htwo : (wrapWords ws ([], w0)).1.length = 2 := by
    rcases hdisj with h | ⟨hle1, hcontent⟩
    · exact h
    · exfalso
      have hct : joinSep ' '
          ((wrapWords ws ([], w0)).1 ++ [(wrapWords ws ([], w0)).2]) = text := by
        rw [hcontent]
        show joinSep ' ' [w0] ++ _ = _
        exact htext
      rcases hl : (wrapWords ws ([], w0)).1 with _ | ⟨l, ls⟩
      · rw [hl] at hct
        simp only [List.nil_append] at hct
        have hlen61 : (wrapWords ws ([], w0)).2.length = 61 := by
          have hsing : joinSep ' ' [(wrapWords ws ([], w0)).2] =
              (wrapWords ws ([], w0)).2 := rfl
          rw [hsing] at hct
          rw [hct, h2]
        omega
      · have hls : ls = [] := by
          rw [hl] at hle1
          simp at hle1
          exact hle1
        subst hls
        rw [hl] at hct hlinesok
        simp only [List.singleton_append] at hct
        have hlb : l.length ≤ 20 := (hlinesok l (by simp)).1
        have hform : joinSep ' ' [l, (wrapWords ws ([], w0)).2] =
            l ++ ' ' :: (wrapWords ws ([], w0)).2 := rfl
        rw [hform] at hct
        have hlen61 : (l ++ ' ' :: (wrapWords ws ([], w0)).2).length = 61 := by
          rw [hct, h2]
        simp at hlen61
        omega
  have hne2 : (wrapWords ws ([], w0)).2 ≠ [] := hok2.1
  have hwl : leafWrapLines (splitOnSpace text) =
      (wrapWords ws ([], w0)).1 ++ [(wrapWords ws ([], w0)).2] := by
    unfold leafWrapLines
    rw [hfirst]
    rw [if_pos (by exact ⟨hne2, by omega⟩)]
  constructor
  · rw [hwl]
    simp [htwo]
  · intro l hl
    rw [hwl] at hl
    rcases List.mem_append.1 hl with h | h
    · exact (hlinesok l h).2
    · rcases List.mem_singleton.1 h with h
      subst h
      exact hok2

/-- **C4 counterexample.** The leaf text `"a  b"` (4 characters, well under
20) does *not* yield one line with no ellipsis: the display label is the
bare ellipsis line `"..."` — the truncation test compares `words.length`
(3, counting the empty token between the two spaces) against the re-split
of the produced line `"a b"` (2 tokens), wrongly concludes words were
dropped, and replaces the line's trailing 3 characters by `"..."`. -/
theorem leafLabel_short_text_counterexample :
    (sl "a  b").length ≤ 20 ∧
    leafLabel (sl "a  b") = sl "..." ∧
    leafLabel (sl "a  b") ≠ sl "a  b" ∧
    sl "..." <:+ leafLabel (sl "a  b") := by
  decide

/-- **C4 (amended).** For a leaf whose text splits into non-empty
whitespace-free words (i.e. a trimmed, single-spaced text): (1) when the
text is at most 20 characters it yields exactly one line — the text itself,
with no ellipsis; (2) when the text is exactly 61 characters with every
word at most 20 characters, the label has exactly 3 lines (2 newlines), and
whenever the produced lines consume fewer space-separated tokens than the
text holds, the final line is ellipsis-truncated. (The loop packs greedily
only while fewer than two lines are complete: the third line receives just
the word that overflowed the second line.) -/
theorem leafLabel_wrap_rules :
    (∀ text, (∀ w ∈ splitOnSpace text, cleanWord w) → text.length ≤ 20 →
      leafLabel text = text) ∧
    (∀ text, (∀ w ∈ splitOnSpace text, cleanWord w ∧ w.length ≤ 20) →
      text.length = 61 →
      (leafLabel text).count '\n' = 2 ∧
      ((splitOnSpace (joinSep ' ' (leafWrapLines (splitOnSpace text)))).length
          < (splitOnSpace text).length →
        sl "..." <:+ leafLabel text)) := by
  constructor
  · exact leafLabel_fits
  · intro text h1 h2
    obtain ⟨h3, h4⟩ := leafLabel_61_wraps text h1 h2
    have hnl : ∀ l ∈ leafWrapLines (splitOnSpace text), ¬ '\n' ∈ l :=
      fun l hl => no_newline_of_lineOk (h4 l hl)
    obtain ⟨a, t, hL⟩ : ∃ a t, leafWrapLines (splitOnSpace text) = a :: t := by
      rcases hw : leafWrapLines (splitOnSpace text) with _ | ⟨a, t⟩
      · rw [hw] at h3
        simp at h3
      · exact ⟨a, t, rfl⟩
    by_cases hcond : (splitOnSpace (joinSep ' '
        (leafWrapLines (splitOnSpace text)))).length < (splitOnSpace text).length
    · have hlabel : leafLabel text =
          joinSep '\n' (ellipsizeLast (leafWrapLines (splitOnSpace text))) := by
        show (if (splitOnSpace (joinSep ' ' (leafWrapLines (splitOnSpace text)))).length
              < (splitOnSpace text).length then
            joinSep '\n' (ellipsizeLast (leafWrapLines (splitOnSpace text)))
          else joinSep '\n' (List.take 3 (leafWrapLines (splitOnSpace text)))) = _
        rw [if_pos hcond]
      have hell : ellipsizeLast (leafWrapLines (splitOnSpace text)) =
          (a :: t).dropLast ++ [truncateLast3 ((a :: t).getLast (by simp))] := by
        rw [hL]
        rfl
      have hlast_mem : (a :: t).getLast (by simp) ∈
          leafWrapLines (splitOnSpace text) := by
        rw [hL]
        exact List.getLast_mem _
      have hell_nl : ∀ l ∈ ellipsizeLast (leafWrapLines (splitOnSpace text)),
          ¬ '\n' ∈ l := by
        rw [hell]
        intro l hl
        rcases List.mem_append.1 hl with h | h
        · exact hnl l (by rw [hL]; exact List.dropLast_subset _ h)
        · rcases List.mem_singleton.1 h with h
          subst h
          intro hmem
          rcases List.mem_append.1 hmem with h | h
          · exact hnl _ hlast_mem (List.take_subset _ _ h)
          · exact absurd h (by decide)
      have hell_len : (ellipsizeLast (leafWrapLines (splitOnSpace text))).length = 3 := by
        rw [hell]
        have : (a :: t).length = 3 := by rw [← hL]; exact h3
        simp [List.length_dropLast, this]
      constructor
      · rw [hlabel]
        rw [count_joinSep_newline _ (by
            intro h
            rw [h] at hell_len
            simp at hell_len) hell_nl, hell_len]
      · intro _
        rw [hlabel, hell]
        have hsuf : sl "..." <:+ truncateLast3 ((a :: t).getLast (by simp)) :=
          List.suffix_append _ _
        exact hsuf.trans (suffix_joinSep_last '\n' _ _)
    · have hlabel : leafLabel text =
          joinSep '\n' (List.take 3 (leafWrapLines (splitOnSpace text))) := by
        show (if (splitOnSpace (joinSep ' ' (leafWrapLines (splitOnSpace text)))).length
              < (splitOnSpace text).length then
            joinSep '\n' (ellipsizeLast (leafWrapLines (splitOnSpace text)))
          else joinSep '\n' (List.take 3 (leafWrapLines (splitOnSpace text)))) = _
        rw [if_neg hcond]
      have htake : List.take 3 (leafWrapLines (splitOnSpace text)) =
          leafWrapLines (splitOnSpace text) :=
        List.take_of_length_le (by omega)
      constructor
      · rw [hlabel, htake,
          count_joinSep_newline _ (by rw [hL]; simp) hnl, h3]
      · intro hc
        exact absurd hc hcond

/-! ## Outline parser (src/app.js: parseHierarchicalTasks)

The parser's task objects: trimmed text, the source line's indentation
level, and the ordered children. -/
inductive OTask where
  | mk (text : Str) (level : Nat) (children : List OTask)

/-- The task's text. -/
def OTask.text : OTask → Str
  | .mk t _ _ => t

/-- The task's recorded indentation level. -/
def OTask.level : OTask → Nat
  | .mk _ l _ => l

/-- The task's children. -/
def OTask.children : OTask → List OTask
  | .mk _ _ c => c

/-- Joint induction over tasks and forests (the nested `List OTask` makes
Lean's default recursor awkward; this restates it as two motives). -/
theorem OTask.forest_induction {motive : OTask → Prop} {motiveL : List OTask → Prop}
    (h1 : ∀ text lvl children, motiveL children → motive (.mk text lvl children))
    (hnil : motiveL [])
    (hcons : ∀ t ts, motive t → motiveL ts → motiveL (t :: ts)) :
    (∀ t, motive t) ∧ (∀ ts, motiveL ts) := by
  have key : ∀ n, (∀ t : OTask, sizeOf t ≤ n → motive t) ∧
      (∀ ts : List OTask, sizeOf ts ≤ n → motiveL ts) := by
    intro n
    induction n with
    | zero =>
      constructor
      · intro t ht
        cases t with
        | mk text lvl ch => simp at ht
      · intro ts hts
        cases ts with
        | nil => exact hnil
        | cons t rest => simp at hts
    | succ n ih =>
      constructor
      · intro t ht
        cases t with
        | mk text lvl ch =>
          refine h1 text lvl ch (ih.2 ch ?_)
          have : sizeOf ch < sizeOf (OTask.mk text lvl ch) := by simp
          omega
      · intro ts hts
        cases ts with
        | nil => exact hnil
        | cons t rest =>
          have h2 : sizeOf t < sizeOf (t :: rest) := by simp; omega
          have h3 : sizeOf rest < sizeOf (t :: rest) := by simp
          exact hcons t rest (ih.1 t (by omega)) (ih.2 rest (by omega))
  exact ⟨fun t => (key (sizeOf t)).1 t le_rfl,
    fun ts => (key (sizeOf ts)).2 ts le_rfl⟩

/-- A parser stack frame. The bottom frame is the sentinel
`{level: -1, children: hierarchy}`; each open task above it accumulates its
children, and on popping the finished task is appended to the children of
the frame below (in the JavaScript the task object was pushed into its
parent's array at creation and mutated in place; attaching on pop builds
the same value). -/
structure Frame where
  level : Int
  text : Str
  children : List OTask

/-- The finished task of a popped frame (the sentinel is never popped, so
`toNat` only ever sees the non-negative levels of real lines). -/
def Frame.toTask (f : Frame) : OTask := .mk f.text f.level.toNat f.children

/-- The parser's `while (stack.length > 1 && top.level >= level) pop`. -/
def popWhile (level : Nat) : List Frame → List Frame
  | [] => []
  | [f] => [f]
  | f :: g :: rest =>
    if (level : Int) ≤ f.level then
      popWhile level ({ g with children := g.children ++ [f.toTask] } :: rest)
    else f :: g :: rest
termination_by st => st.length
decreasing_by simp

/-- One line of the parser's loop: skip blank lines, otherwise pop to the
right ancestor and push the new task's frame. -/
def stepLine (st : List Frame) (rawLine : Str) : List Frame :=
  let level := getIndentLevel rawLine
  let text := jsTrim rawLine
  if text = [] then st
  else Frame.mk (level : Int) text [] :: popWhile level st

/-- Close every frame that is still open at the end of the input and return
the sentinel's children (the parsed hierarchy). -/
def flushFrames : List Frame → List OTask
  | [] => []
  | [f] => f.children
  | f :: g :: rest =>
    flushFrames ({ g with children := g.children ++ [f.toTask] } :: rest)
termination_by st => st.length
decreasing_by simp

/-- `input.split(/\r?\n/)` accumulator: split at every newline, also eating
one carriage return directly before it. -/
def splitLinesAux : Str → Str → List Str
  | [], acc => [acc.reverse]
  | c :: cs, acc =>
    if c = '\n' then
      (if acc.head? = some '\r' then acc.tail else acc).reverse ::
        splitLinesAux cs []
    else splitLinesAux cs (c :: acc)

/-- `input.split(/\r?\n/)`. -/
def splitLines (s : Str) : List Str := splitLinesAux s []

/-- The parser's loop over the (already `filter(Boolean)`ed) lines, seeded
with the sentinel frame. -/
def parseLines (lines : List Str) : List OTask :=
  flushFrames (lines.foldl stepLine [Frame.mk (-1) [] []])

/-- `parseHierarchicalTasks` (src/app.js lines 589–617): split into lines,
drop empty ones, and run the stack builder (whitespace-only lines are
additionally skipped inside the loop by `stepLine`). -/
def parseHierarchicalTasks (input : Str) : List OTask :=
  parseLines ((splitLines input).filter fun l => l ≠ [])

/-! ## Reconstruction (src/app.js: hierarchyToText) -/

/-- `'  '.repeat(indent)` and friends: `n` spaces. -/
def spacesN (n : Nat) : Str := List.replicate n ' '

mutual

/-- The lines `hierarchyToText` emits for one node: its own line with
2-space indentation per level, then its children's lines one level deeper. -/
def taskLines (d : Nat) (t : OTask) : List Str :=
  match t with
  | .mk text _ children => (spacesN (2 * d) ++ text) :: forestLines (d + 1) children

/-- The lines `hierarchyToText` emits for a sibling list, in order. -/
def forestLines (d : Nat) : List OTask → List Str
  | [] => []
  | t :: ts => taskLines d t ++ forestLines d ts

end

/-- `hierarchyToText` (src/app.js lines 1009–1021): every emitted line is
the node's text behind its indentation, terminated by a newline. -/
def hierarchyToText (h : List OTask) : Str :=
  (forestLines 0 h).flatMap fun l => l ++ ['\n']

mutual

/-- A task with its levels replaced by its actual depth (what re-parsing
the emitted text records in `level`). -/
def reindexT (d : Nat) : OTask → OTask
  | .mk text _ children => .mk text d (reindexF (d + 1) children)

/-- `reindexT` over a sibling list. -/
def reindexF (d : Nat) : List OTask → List OTask
  | [] => []
  | t :: ts => reindexT d t :: reindexF d ts

end

/-- A reconstructible text: non-empty, already trimmed, and free of line
breaks (so it survives one emit/parse cycle unchanged). -/
def wfText (s : Str) : Prop :=
  s ≠ [] ∧ jsTrim s = s ∧ ¬ '\n' ∈ s ∧ ¬ '\r' ∈ s

mutual

/-- Every text in the tree is reconstructible. -/
inductive WfT : OTask → Prop where
  | mk : ∀ text lvl ch, wfText text → WfF ch → WfT (.mk text lvl ch)

/-- Every text in the forest is reconstructible. -/
inductive WfF : List OTask → Prop where
  | nil : WfF []
  | cons : ∀ t ts, WfT t → WfF ts → WfF (t :: ts)

end

/-! ### Parse/emit round trip: line-level lemmas -/

theorem length_dropWhile_le (p : Char → Bool) (l : Str) :
    (l.dropWhile p).length ≤ l.length :=
  (List.dropWhile_suffix p).sublist.length_le

theorem jsTrim_parts {s : Str} (h : jsTrim s = s) :
    s.dropWhile isJsSpace = s ∧ s.reverse.dropWhile isJsSpace = s.reverse := by
  have hlen3 : ((s.dropWhile isJsSpace).reverse.dropWhile isJsSpace).length =
      s.length := by
    have := congrArg List.length h
    simpa [jsTrim] using this
  have hlen1 : (s.dropWhile isJsSpace).length ≤ s.length :=
    length_dropWhile_le _ _
  have hlen2 : ((s.dropWhile isJsSpace).reverse.dropWhile isJsSpace).length ≤
      (s.dropWhile isJsSpace).length := by
    have := length_dropWhile_le isJsSpace (s.dropWhile isJsSpace).reverse
    simpa using this
  have hd : s.dropWhile isJsSpace = s := by
    have hsuf : s.dropWhile isJsSpace <:+ s := List.dropWhile_suffix _
    exact hsuf.eq_of_length (by omega)
  refine ⟨hd, ?_⟩
  have hsuf2 : s.reverse.dropWhile isJsSpace <:+ s.reverse :=
    List.dropWhile_suffix _
  refine hsuf2.eq_of_length ?_
  rw [hd] at hlen3
  simpa using hlen3

theorem wfText_head {s : Str} (h : wfText s) :
    ∀ c, s.head? = some c → isJsSpace c = false := by
  intro c hc
  obtain ⟨hne, htrim, -, -⟩ := h
  have hd := (jsTrim_parts htrim).1
  cases s with
  | nil => simp at hc
  | cons a rest =>
    simp only [List.head?] at hc
    injection hc with hc
    by_contra hws
    have hws2 : isJsSpace a = true := by
      cases hx : isJsSpace a
      · rw [hc] at hx
        exact absurd hx hws
      · rfl
    rw [List.dropWhile_cons, hws2] at hd
    have h5 := length_dropWhile_le isJsSpace rest
    have h6 := congrArg List.length hd
    simp at h6
    omega

theorem wfText_last {s : Str} (h : wfText s) :
    ∀ c, s.getLast? = some c → isJsSpace c = false := by
  intro c hc
  obtain ⟨hne, htrim, -, -⟩ := h
  have hd := (jsTrim_parts htrim).2
  rw [← List.head?_reverse] at hc
  rcases hrev : s.reverse with _ | ⟨a, rest⟩
  · rw [hrev] at hc
    simp at hc
  · rw [hrev] at hc hd
    simp only [List.head?] at hc
    injection hc with hc
    by_contra hws
    have hws2 : isJsSpace a = true := by
      cases hx : isJsSpace a
      · rw [hc] at hx
        exact absurd hx hws
      · rfl
    rw [List.dropWhile_cons, hws2] at hd
    have h5 := length_dropWhile_le isJsSpace rest
    have h6 := congrArg List.length hd
    simp at h6
    omega

theorem dropWhile_spacesN (n : Nat) (s : Str) :
    (spacesN n ++ s).dropWhile isJsSpace = s.dropWhile isJsSpace := by
  induction n with
  | zero => simp [spacesN]
  | succ k ih =>
    show (' ' :: (spacesN k ++ s)).dropWhile isJsSpace = _
    rw [List.dropWhile_cons]
    simp only [show isJsSpace ' ' = true from rfl, if_true]
    exact ih

theorem takeWhile_spacesN (n : Nat) (s : Str) :
    (spacesN n ++ s).takeWhile isJsSpace = spacesN n ++ s.takeWhile isJsSpace := by
  induction n with
  | zero => simp [spacesN]
  | succ k ih =>
    show (' ' :: (spacesN k ++ s)).takeWhile isJsSpace = _
    rw [List.takeWhile_cons]
    simp only [show isJsSpace ' ' = true from rfl, if_true]
    rw [ih]
    rfl

theorem takeWhile_eq_nil_of_head {s : Str}
    (h : ∀ c, s.head? = some c → isJsSpace c = false) :
    s.takeWhile isJsSpace = [] := by
  cases s with
  | nil => rfl
  | cons a rest =>
    rw [List.takeWhile_cons, h a rfl]
    rfl

theorem expandTabs4_spacesN (n : Nat) : expandTabs4 (spacesN n) = spacesN n := by
  induction n with
  | zero => rfl
  | succ k ih =>
    show expandTabs4 (' ' :: spacesN k) = ' ' :: spacesN k
    simp only [expandTabs4, List.flatMap_cons] at ih ⊢
    rw [if_neg (by decide)]
    rw [ih]
    rfl

/-- The emitted line of a well-formed text parses back to its depth. -/
theorem getIndentLevel_emitted {d : Nat} {text : Str} (h : wfText text) :
    getIndentLevel (spacesN (2 * d) ++ text) = d := by
  unfold getIndentLevel leadingWs
  rw [takeWhile_spacesN, takeWhile_eq_nil_of_head (wfText_head h),
    List.append_nil, expandTabs4_spacesN]
  simp [spacesN]

/-- The emitted line of a well-formed text trims back to the text. -/
theorem jsTrim_emitted {d : Nat} {text : Str} (h : wfText text) :
    jsTrim (spacesN (2 * d) ++ text) = text := by
  unfold jsTrim
  rw [dropWhile_spacesN, (jsTrim_parts h.2.1).1, (jsTrim_parts h.2.1).2]
  exact List.reverse_reverse text

/-! ### Parse/emit round trip: stack-machine lemmas -/

theorem popWhile_nil (lvl : Nat) : popWhile lvl [] = [] := by
  unfold popWhile
  rfl

theorem popWhile_single (lvl : Nat) (f : Frame) : popWhile lvl [f] = [f] := by
  unfold popWhile
  rfl

theorem popWhile_cons₂ (lvl : Nat) (f g : Frame) (rest : List Frame) :
    popWhile lvl (f :: g :: rest) =
      if (lvl : Int) ≤ f.level then
        popWhile lvl ({ g with children := g.children ++ [f.toTask] } :: rest)
      else f :: g :: rest := by
  conv_lhs => unfold popWhile

theorem flushFrames_nil : flushFrames [] = [] := by
  unfold flushFrames
  rfl

theorem flushFrames_single (f : Frame) : flushFrames [f] = f.children := by
  unfold flushFrames
  rfl

theorem flushFrames_cons₂ (f g : Frame) (rest : List Frame) :
    flushFrames (f :: g :: rest) =
      flushFrames ({ g with children := g.children ++ [f.toTask] } :: rest) := by
  conv_lhs => unfold flushFrames

theorem popWhile_lt {lvl : Nat} {f : Frame} {rest : List Frame}
    (h : f.level < (lvl : Int)) : popWhile lvl (f :: rest) = f :: rest := by
  cases rest with
  | nil => exact popWhile_single lvl f
  | cons g rs =>
    rw [popWhile_cons₂, if_neg (by omega)]

theorem popWhile_popWhile : ∀ (st : List Frame) {l1 l2 : Nat}, l1 ≤ l2 →
    popWhile l1 (popWhile l2 st) = popWhile l1 st := by
  have key : ∀ n (st : List Frame), st.length ≤ n → ∀ l1 l2 : Nat, l1 ≤ l2 →
      popWhile l1 (popWhile l2 st) = popWhile l1 st := by
    intro n
    induction n with
    | zero =>
      intro st hst l1 l2 hle
      have : st = [] := List.length_eq_zero.1 (by omega)
      subst this
      rw [popWhile_nil, popWhile_nil]
    | succ n ih =>
      intro st hst l1 l2 hle
      match st with
      | [] => rw [popWhile_nil, popWhile_nil]
      | [f] => rw [popWhile_single, popWhile_single]
      | f :: g :: rest =>
        by_cases hf : (l2 : Int) ≤ f.level
        · have hstep : popWhile l2 (f :: g :: rest) =
              popWhile l2 ({ g with children := g.children ++ [f.toTask] } :: rest) := by
            rw [popWhile_cons₂, if_pos hf]
          have hstep1 : popWhile l1 (f :: g :: rest) =
              popWhile l1 ({ g with children := g.children ++ [f.toTask] } :: rest) := by
            rw [popWhile_cons₂, if_pos (by omega)]
          rw [hstep, hstep1]
          exact ih _ (by simp at hst ⊢; omega) l1 l2 hle
        · rw [popWhile_lt (by omega)]
  intro st l1 l2 h
  exact key st.length st le_rfl l1 l2 h

theorem flushFrames_popWhile : ∀ (st : List Frame) (lvl : Nat),
    flushFrames (popWhile lvl st) = flushFrames st := by
  have key : ∀ n (st : List Frame), st.length ≤ n → ∀ lvl : Nat,
      flushFrames (popWhile lvl st) = flushFrames st := by
    intro n
    induction n with
    | zero =>
      intro st hst lvl
      have : st = [] := List.length_eq_zero.1 (by omega)
      subst this
      rw [popWhile_nil]
    | succ n ih =>
      intro st hst lvl
      match st with
      | [] => rw [popWhile_nil]
      | [f] => rw [popWhile_single]
      | f :: g :: rest =>
        by_cases hf : (lvl : Int) ≤ f.level
        · have hstep : popWhile lvl (f :: g :: rest) =
              popWhile lvl ({ g with children := g.children ++ [f.toTask] } :: rest) := by
            rw [popWhile_cons₂, if_pos hf]
          rw [hstep, flushFrames_cons₂]
          exact ih _ (by simp at hst ⊢; omega) lvl
        · rw [popWhile_lt (by omega)]
  intro st lvl
  exact key st.length st le_rfl lvl

/-- Processing the emitted line of a well-formed text: pop to the line's
level, push its fresh frame. -/
theorem stepLine_emitted {d : Nat} {text : Str} (h : wfText text)
    (st : List Frame) :
    stepLine st (spacesN (2 * d) ++ text) =
      Frame.mk (d : Int) text [] :: popWhile d st := by
  unfold stepLine
  rw [jsTrim_emitted h, getIndentLevel_emitted h, if_neg h.1]

/-- Running the parser over the emitted block of a well-formed forest: with
the block's ancestor frame on top of the stack, the block's tasks (with
depth-indexed levels) are appended to that frame's children — observed
through any later pop at a level not above the block's. -/
theorem runLines_emitted :
    ∀ ts : List OTask, WfF ts → ∀ (d : Nat) (f : Frame) (rest : List Frame),
      f.level < (d : Int) → ∀ lvl : Nat, lvl ≤ d →
      popWhile lvl ((forestLines d ts).foldl stepLine (f :: rest)) =
      popWhile lvl ({ f with children := f.children ++ reindexF d ts } :: rest) := by
  have main := @OTask.forest_induction
    (fun t => WfF t.children → ∀ (d : Nat) (f : Frame) (rest : List Frame),
      f.level < (d : Int) → ∀ lvl : Nat, lvl ≤ d →
      popWhile lvl ((forestLines d t.children).foldl stepLine (f :: rest)) =
      popWhile lvl ({ f with children := f.children ++ reindexF d t.children } :: rest))
    (fun ts => WfF ts → ∀ (d : Nat) (f : Frame) (rest : List Frame),
      f.level < (d : Int) → ∀ lvl : Nat, lvl ≤ d →
      popWhile lvl ((forestLines d ts).foldl stepLine (f :: rest)) =
      popWhile lvl ({ f with children := f.children ++ reindexF d ts } :: rest))
    (fun text lvl children ih => ih)
    (by
      intro _ d f rest hf lvl hlvl
      show popWhile lvl (f :: rest) = _
      have : { f with children := f.children ++ reindexF d [] } = f := by
        show { f with children := f.children ++ [] } = f
        simp
      rw [this])
    (by
      intro t ts iht ihts hwf d f rest hf lvl hlvl
      cases t with
      | mk text tlvl ch =>
        cases hwf with
        | cons _ _ hwt hwts =>
          cases hwt with
          | mk _ _ _ htext hch =>
            have hforest : forestLines d (OTask.mk text tlvl ch :: ts) =
                (spacesN (2 * d) ++ text) ::
                  (forestLines (d + 1) ch ++ forestLines d ts) := by
              show taskLines d (OTask.mk text tlvl ch) ++ forestLines d ts = _
              rw [taskLines]
              simp
            have hstep0 : stepLine (f :: rest) (spacesN (2 * d) ++ text) =
                Frame.mk (d : Int) text [] :: f :: rest := by
              rw [stepLine_emitted htext, popWhile_lt hf]
            have hihch := iht hch (d + 1) (Frame.mk (d : Int) text [])
              (f :: rest) (by show (d : Int) < ((d + 1 : Nat) : Int); omega)
            simp only [OTask.children] at hihch
            have hF : { Frame.mk (d : Int) text [] with
                children := (Frame.mk (d : Int) text []).children ++ reindexF (d + 1) ch } =
                Frame.mk (d : Int) text (reindexF (d + 1) ch) := by
              show Frame.mk (d : Int) text ([] ++ reindexF (d + 1) ch) = _
              rw [List.nil_append]
            have htask : (Frame.mk (d : Int) text (reindexF (d + 1) ch)).toTask =
                reindexT d (OTask.mk text tlvl ch) := by
              show OTask.mk text ((d : Int)).toNat (reindexF (d + 1) ch) = _
              rw [Int.toNat_natCast]
              rfl
            -- the state after the node's own line and its children's block
            have hsigma : ∀ lvl2 : Nat, lvl2 ≤ d →
                popWhile lvl2 ((forestLines (d + 1) ch).foldl stepLine
                  (Frame.mk (d : Int) text [] :: f :: rest)) =
                popWhile lvl2
                  ({ f with children := f.children ++ [reindexT d (OTask.mk text tlvl ch)] } :: rest) := by
              intro lvl2 hlvl2
              rw [hihch lvl2 (by omega), hF]
              rw [popWhile_cons₂, if_pos (by show (lvl2 : Int) ≤ (d : Int); omega)]
              rw [htask]
            rw [hforest]
            rw [List.foldl_cons, hstep0, List.foldl_append]
            rcases ts with _ | ⟨t2, ts2⟩
            · -- no further siblings: the children block's state is observed
              -- directly through the final pop
              show popWhile lvl ((forestLines (d + 1) ch).foldl stepLine
                (Frame.mk (d : Int) text [] :: f :: rest)) = _
              rw [hsigma lvl hlvl]
              show _ = popWhile lvl
                ({ f with children := f.children ++ reindexF d [OTask.mk text tlvl ch] } :: rest)
              rw [show reindexF d [OTask.mk text tlvl ch] =
                [reindexT d (OTask.mk text tlvl ch)] from rfl]
            · -- a following sibling line pops the finished subtree first
              cases t2 with
              | mk text2 tlvl2 ch2 =>
                have htext2 : wfText text2 := by
                  cases hwts with
                  | cons _ _ hwt2 _ =>
                    cases hwt2 with
                    | mk _ _ _ h _ => exact h
                have hforest2 : forestLines d (OTask.mk text2 tlvl2 ch2 :: ts2) =
                    (spacesN (2 * d) ++ text2) ::
                      (forestLines (d + 1) ch2 ++ forestLines d ts2) := by
                  show taskLines d (OTask.mk text2 tlvl2 ch2) ++ forestLines d ts2 = _
                  rw [taskLines]
                  simp
                rw [hforest2, List.foldl_cons]
                have hs1 : stepLine ((forestLines (d + 1) ch).foldl stepLine
                    (Frame.mk (d : Int) text [] :: f :: rest)) (spacesN (2 * d) ++ text2) =
                    stepLine ({ f with children :=
                      f.children ++ [reindexT d (OTask.mk text tlvl ch)] } :: rest)
                      (spacesN (2 * d) ++ text2) := by
                  rw [stepLine_emitted htext2, stepLine_emitted htext2,
                    hsigma d le_rfl,
                    popWhile_lt (f := { f with children :=
                      f.children ++ [reindexT d (OTask.mk text tlvl ch)] }) hf]
                rw [hs1]
                have hrec := ihts hwts d
                  ({ f with children := f.children ++ [reindexT d (OTask.mk text tlvl ch)] })
                  rest (by show f.level < (d : Int); exact hf) lvl hlvl
                rw [hforest2, List.foldl_cons] at hrec
                rw [hrec]
                show popWhile lvl
                    ({ f with children := ((f.children ++
                      [reindexT d (OTask.mk text tlvl ch)]) ++
                      reindexF d (OTask.mk text2 tlvl2 ch2 :: ts2)) } :: rest) = _
                rw [List.append_assoc]
                rfl)
  exact main.2

/-! ### Parse/emit round trip: splitting the emitted text back into lines -/

theorem splitLinesAux_line (l : Str) (rest : Str) (acc : Str)
    (hnl : ¬ '\n' ∈ l) (hcr : ¬ '\r' ∈ l)
    (hacc : ∀ hd, acc.head? = some hd → hd ≠ '\r') :
    splitLinesAux (l ++ '\n' :: rest) acc =
      (acc.reverse ++ l) :: splitLinesAux rest [] := by
  induction l generalizing acc with
  | nil =>
    show splitLinesAux ('\n' :: rest) acc = _
    conv_lhs => unfold splitLinesAux
    rw [if_pos rfl]
    have hif : (if acc.head? = some '\r' then acc.tail else acc) = acc := by
      rcases h : acc.head? with _ | hd
      · simp
      · rw [if_neg]
        intro hcontra
        injection hcontra with hcontra
        exact hacc hd h hcontra
    rw [hif]
    simp
  | cons c cs ih =>
    have hc : c ≠ '\n' := fun h => hnl (by simp [h])
    show splitLinesAux (c :: (cs ++ '\n' :: rest)) acc = _
    conv_lhs => unfold splitLinesAux
    rw [if_neg hc]
    rw [ih (c :: acc) (fun h => hnl (by simp [h])) (fun h => hcr (by simp [h]))
      (by
        intro hd hh
        simp only [List.head?] at hh
        injection hh with hh
        subst hh
        exact fun h => hcr (by simp [h]))]
    simp

theorem splitLines_flat (lines : List Str)
    (h : ∀ l ∈ lines, ¬ '\n' ∈ l ∧ ¬ '\r' ∈ l) :
    splitLines (lines.flatMap fun l => l ++ ['\n']) = lines ++ [[]] := by
  induction lines with
  | nil => rfl
  | cons l rest ih =>
    show splitLines ((l ++ ['\n']) ++ rest.flatMap fun x => x ++ ['\n']) = _
    unfold splitLines
    rw [List.append_assoc]
    show splitLinesAux (l ++ '\n' :: rest.flatMap fun x => x ++ ['\n']) [] = _
    rw [splitLinesAux_line _ _ _ (h l (by simp)).1 (h l (by simp)).2
      (by intro hd hh; simp at hh)]
    rw [show splitLinesAux (rest.flatMap fun x => x ++ ['\n']) [] =
      splitLines (rest.flatMap fun x => x ++ ['\n']) from rfl]
    rw [ih (fun x hx => h x (by simp [hx]))]
    simp

/-- Every emitted line is an indented well-formed text, hence non-empty and
free of line breaks. -/
theorem forestLines_shape :
    ∀ ts : List OTask, WfF ts → ∀ d, ∀ l ∈ forestLines d ts,
      ∃ d2 text, l = spacesN (2 * d2) ++ text ∧ wfText text := by
  have main := @OTask.forest_induction
    (fun t => WfF t.children → ∀ d, ∀ l ∈ forestLines d t.children,
      ∃ d2 text, l = spacesN (2 * d2) ++ text ∧ wfText text)
    (fun ts => WfF ts → ∀ d, ∀ l ∈ forestLines d ts,
      ∃ d2 text, l = spacesN (2 * d2) ++ text ∧ wfText text)
    (fun text lvl children ih => ih)
    (by
      intro _ d l hl
      exact absurd hl (List.not_mem_nil l))
    (by
      intro t ts iht ihts hwf d l hl
      cases t with
      | mk text tlvl ch =>
        cases hwf with
        | cons _ _ hwt hwts =>
          cases hwt with
          | mk _ _ _ htext hch =>
            rw [show forestLines d (OTask.mk text tlvl ch :: ts) =
                taskLines d (OTask.mk text tlvl ch) ++ forestLines d ts from rfl,
              taskLines] at hl
            rcases List.mem_append.1 hl with h1 | h1
            · rcases List.mem_cons.1 h1 with h2 | h2
              · exact ⟨d, text, h2, htext⟩
              · exact iht hch (d + 1) l h2
            · exact ihts hwts d l h1)
  exact main.2

theorem forestLines_clean {ts : List OTask} (hwf : WfF ts) {d : Nat} :
    ∀ l ∈ forestLines d ts, l ≠ [] ∧ ¬ '\n' ∈ l ∧ ¬ '\r' ∈ l := by
  intro l hl
  obtain ⟨d2, text, hline, htext⟩ := forestLines_shape ts hwf d l hl
  subst hline
  refine ⟨?_, ?_, ?_⟩
  · simp [htext.1]
  · intro hmem
    rcases List.mem_append.1 hmem with h | h
    · exact absurd (List.eq_of_mem_replicate h) (by decide)
    · exact htext.2.2.1 h
  · intro hmem
    rcases List.mem_append.1 hmem with h | h
    · exact absurd (List.eq_of_mem_replicate h) (by decide)
    · exact htext.2.2.2 h

/-- **Parse–emit round trip.** Re-parsing the emitted text of a well-formed
forest reproduces the forest exactly, with each task's `level` replaced by
its depth. -/
theorem parse_hierarchyToText (H : List OTask) (h : WfF H) :
    parseHierarchicalTasks (hierarchyToText H) = reindexF 0 H := by
  unfold parseHierarchicalTasks hierarchyToText
  have hsplit := splitLines_flat (forestLines 0 H)
    (fun l hl => (forestLines_clean h l hl).2)
  rw [hsplit]
  have hfilter : ((forestLines 0 H) ++ [[]]).filter (fun l => l ≠ []) =
      forestLines 0 H := by
    rw [List.filter_append]
    have h1 : (forestLines 0 H).filter (fun l => l ≠ []) = forestLines 0 H :=
      List.filter_eq_self.2 fun l hl => by
        simp [(forestLines_clean h l hl).1]
    have h2 : ([([] : Str)] : List Str).filter (fun l => l ≠ []) = [] := rfl
    rw [h1, h2, List.append_nil]
  rw [hfilter]
  unfold parseLines
  have hrun := runLines_emitted H h 0 (Frame.mk (-1) [] []) []
    (by show (-1 : Int) < 0; omega) 0 le_rfl
  rw [popWhile_single] at hrun
  rw [← flushFrames_popWhile (((forestLines 0 H)).foldl stepLine
    [Frame.mk (-1) [] []]) 0, hrun, flushFrames_single]
  rfl

/-! ## Tree→graph mapper (src/app.js: buildNetworkData) -/

/-- A decimal digit character (what the template literal renders). -/
def digitChar (d : Nat) : Char :=
  if d = 0 then '0' else if d = 1 then '1' else if d = 2 then '2'
  else if d = 3 then '3' else if d = 4 then '4' else if d = 5 then '5'
  else if d = 6 then '6' else if d = 7 then '7' else if d = 8 then '8' else '9'

/-- The decimal rendering of a natural number. -/
def natToDec (n : Nat) : Str :=
  if n < 10 then [digitChar n]
  else natToDec (n / 10) ++ [digitChar (n % 10)]
termination_by n
decreasing_by exact Nat.div_lt_self (by omega) (by omega)

/-- Inverse digit reading, used only to prove `natToDec` injective. -/
def digitVal (c : Char) : Nat :=
  if c = '0' then 0 else if c = '1' then 1 else if c = '2' then 2
  else if c = '3' then 3 else if c = '4' then 4 else if c = '5' then 5
  else if c = '6' then 6 else if c = '7' then 7 else if c = '8' then 8 else 9

/-- Decimal reading, used only to prove `natToDec` injective. -/
def fromDec (s : Str) : Nat := s.foldl (fun a c => 10 * a + digitVal c) 0

theorem digitVal_digitChar {d : Nat} (h : d < 10) : digitVal (digitChar d) = d := by
  interval_cases d <;> rfl

theorem fromDec_append (xs : Str) (c : Char) :
    fromDec (xs ++ [c]) = 10 * fromDec xs + digitVal c := by
  unfold fromDec
  rw [List.foldl_append]
  rfl

theorem fromDec_natToDec : ∀ n, fromDec (natToDec n) = n := by
  intro n
  induction n using Nat.strong_induction_on with
  | _ n ih =>
    by_cases h : n < 10
    · rw [natToDec, if_pos h]
      show 10 * 0 + digitVal (digitChar n) = n
      rw [digitVal_digitChar h]
      omega
    · rw [natToDec, if_neg h, fromDec_append,
        ih (n / 10) (Nat.div_lt_self (by omega) (by omega)),
        digitVal_digitChar (Nat.mod_lt n (by omega))]
      omega

theorem natToDec_injective {a b : Nat} (h : natToDec a = natToDec b) : a = b := by
  have := congrArg fromDec h
  rwa [fromDec_natToDec, fromDec_natToDec] at this

/-- `task_${nodeId}`: the minted id of the `nodeId`-th task. -/
def taskId (k : Nat) : Str := sl "task_" ++ natToDec k

theorem taskId_injective {a b : Nat} (h : taskId a = taskId b) : a = b :=
  natToDec_injective (List.append_cancel_left h)

theorem taskId_ne_root (k : Nat) : taskId k ≠ sl "root" := by
  intro h
  have : ('t' : Char) = 'r' := by
    have h2 := congrArg List.head? h
    simp [taskId, sl] at h2
  exact absurd this (by decide)

/-- `GROUP_COLORS` (src/app.js). -/
def GROUP_COLORS : List (Str × Str) :=
  [ (sl "Design", sl "#8ecae6"), (sl "Development", sl "#219ebc"),
    (sl "Testing", sl "#b5179e"), (sl "Documentation", sl "#f4a261"),
    (sl "Deployment", sl "#4CAF50"), (sl "Other", sl "#adb5bd") ]

/-- `GROUP_COLORS[group] || GROUP_COLORS['Other']`. -/
def groupColor (g : Str) : Str :=
  match GROUP_COLORS.find? (fun p => p.1 = g) with
  | some p => p.2
  | none => sl "#adb5bd"

/-- The group `processTask` resolves for a task:
`autoGroup ? detectKeyword(task.text) : (parentGroup || 'Other')`. -/
def taskGroup (ag : Bool) (pg : Option Str) (text : Str) : Str :=
  if ag then detectKeyword text else pg.getD (sl "Other")

/-- The `nodeConfig` object `processTask` pushes (visual font/margin/size
fields not modelled). -/
def taskNode (ag : Bool) (pg : Option Str) (lvl : Nat) (text : Str)
    (children : List OTask) (nid : Nat) : GNode :=
  { id := taskId nid, label := displayLabel (! children.isEmpty) text,
    title := some text, originalText := some text, level := lvl,
    shape := if (! children.isEmpty : Bool) then sl "dot" else sl "box",
    color := groupColor (taskGroup ag pg text) }

/-- The edge `processTask` pushes from the parent to the new node. -/
def taskEdge (pid : Str) (lvl : Nat) (nid : Nat) : GEdge :=
  { efrom := pid, eto := taskId nid, width := if lvl = 1 then 3 else 2 }

mutual

/-- `processTask` (src/app.js lines 665–755): mint the task's id, resolve
its group (classifier or inherited), build its node and the edge from its
parent, then recurse into the children one level deeper. Returns the
emitted nodes (preorder), edges (preorder), and the advanced id counter. -/
def buildTask (ag : Bool) (pg : Option Str) (pid : Str) (lvl : Nat)
    (t : OTask) (nid : Nat) : List GNode × List GEdge × Nat :=
  match t with
  | .mk text _ children =>
    let res := buildForestTasks ag (some (taskGroup ag pg text)) (taskId nid)
      (lvl + 1) children (nid + 1)
    (taskNode ag pg lvl text children nid :: res.1,
     taskEdge pid lvl nid :: res.2.1, res.2.2)

/-- The children loop of `processTask` (and the top-level loop of
`buildNetworkData`). -/
def buildForestTasks (ag : Bool) (pg : Option Str) (pid : Str) (lvl : Nat)
    (ts : List OTask) (nid : Nat) : List GNode × List GEdge × Nat :=
  match ts with
  | [] => ([], [], nid)
  | t :: rest =>
    let r1 := buildTask ag pg pid lvl t nid
    let r2 := buildForestTasks ag pg pid lvl rest r1.2.2
    (r1.1 ++ r2.1, r1.2.1 ++ r2.2.1, r2.2.2)

end

/-- The fixed root node `buildNetworkData` always emits (visual font/size
fields not modelled). -/
def rootNode : GNode :=
  { id := sl "root", label := sl "Mind Map", title := some (sl "Mind Map"),
    originalText := some (sl "Mind Map"), level := 0, shape := sl "dot",
    color := sl "#F59E0B" }

/-- `buildNetworkData` (src/app.js lines 641–766): the root node followed
by the processed forest (`processTask(task, 'root', 1, null)` for each
top-level task). -/
def buildNetworkData (h : List OTask) (ag : Bool) : List GNode × List GEdge :=
  let res := buildForestTasks ag none (sl "root") 1 h 0
  (rootNode :: res.1, res.2.1)

/-! ## Graph→tree mapper (src/app.js: buildHierarchyFromNetwork) -/

/-- `nodeMap[id]` (ids are unique in every document this code builds, so
first-match lookup equals the object map). -/
def lookupNode (N : List GNode) (i : Str) : Option GNode :=
  N.find? fun n => n.id = i

/-- JavaScript `a || b` on an optional string field. -/
def jsOrStr : Option Str → Str → Str
  | some s, dflt => if s = [] then dflt else s
  | none, dflt => dflt

/-- `label.replace(/\n/g, ' ')`. -/
def stripNewlines (s : Str) : Str := s.map fun c => if c = '\n' then ' ' else c

/-- The hierarchy node's text:
`node.originalText || node.title || node.label.replace(/\n/g, ' ')`. -/
def hierText (n : GNode) : Str :=
  jsOrStr n.originalText (jsOrStr n.title (stripNewlines n.label))

/-- The children pushed under parent id `p`: edges in insertion order whose
endpoints both resolve in the node map and whose child is not the root. -/
def rawChildren (N : List GNode) (E : List GEdge) (p : Str) : List GNode :=
  (E.filter fun e => e.efrom = p ∧ (lookupNode N e.efrom).isSome ∧
      (lookupNode N e.eto).isSome ∧ e.eto ≠ sl "root").filterMap
    fun e => lookupNode N e.eto

/-- `a.id.localeCompare(b.id)` modelled as code-unit lexicographic
comparison — exact for the ASCII ids this application mints. -/
def strLe : Str → Str → Bool
  | [], _ => true
  | _ :: _, [] => false
  | a :: as, b :: bs => if a = b then strLe as bs else decide (a < b)

/-- The child sort comparator: by `level` ascending, ties by id. -/
def childLe (a b : GNode) : Bool :=
  decide (a.level < b.level) || (decide (a.level = b.level) && strLe a.id b.id)

/-- A parent's children list after the per-node sort (JavaScript
`Array.prototype.sort` is stable; `mergeSort` is its stable model). -/
def hierChildren (N : List GNode) (E : List GEdge) (p : Str) : List GNode :=
  (rawChildren N E p).mergeSort childLe

/-- The recursive materialization of the linked-and-sorted node map into a
task tree, fuel-bounded (the JavaScript builds the linked structure by
mutation; on the tree-shaped documents this application produces, the fuel
passed by `buildHierarchyFromNetwork` is never exhausted). -/
def matNode (ch : Str → List GNode) (tx : GNode → Str) : Nat → GNode → OTask
  | 0, n => .mk (tx n) n.level []
  | fuel + 1, n => .mk (tx n) n.level ((ch n.id).map (matNode ch tx fuel))

/-- `buildHierarchyFromNetwork` (src/app.js lines 968–1004): link children
under each node in edge order, sort every children array by (level, id),
and return the root's children (or `[]` with no root). -/
def buildHierarchyFromNetwork (N : List GNode) (E : List GEdge) : List OTask :=
  match lookupNode N (sl "root") with
  | none => []
  | some r =>
    (hierChildren N E r.id).map (matNode (hierChildren N E) hierText N.length)

/-! ### Correctness of the materialization -/

mutual

/-- "The linked structure under node `n` is the task `t`": `t`'s text and
level come from `n`, and its children materialize `ch n.id` pointwise. -/
inductive MatTree (ch : Str → List GNode) (tx : GNode → Str) :
    GNode → OTask → Prop where
  | mk : ∀ n ts, MatForest ch tx (ch n.id) ts →
      MatTree ch tx n (.mk (tx n) n.level ts)

/-- Pointwise `MatTree` over a children list. -/
inductive MatForest (ch : Str → List GNode) (tx : GNode → Str) :
    List GNode → List OTask → Prop where
  | nil : MatForest ch tx [] []
  | cons : ∀ n t ns ts, MatTree ch tx n t → MatForest ch tx ns ts →
      MatForest ch tx (n :: ns) (t :: ts)

end

mutual

/-- Tree height. -/
def depthT : OTask → Nat
  | .mk _ _ ch => 1 + depthF ch

/-- Forest height. -/
def depthF : List OTask → Nat
  | [] => 0
  | t :: ts => max (depthT t) (depthF ts)

end

theorem matNode_of_MatTree (ch : Str → List GNode) (tx : GNode → Str) :
    ∀ fuel, (∀ n t, MatTree ch tx n t → depthT t ≤ fuel →
        matNode ch tx fuel n = t) ∧
      (∀ ns ts, MatForest ch tx ns ts → depthF ts ≤ fuel →
        ns.map (matNode ch tx fuel) = ts) := by
  intro fuel
  induction fuel with
  | zero =>
    constructor
    · intro n t hmt hd
      cases hmt with
      | mk n ts hf =>
        rw [depthT] at hd
        omega
    · intro ns ts hmf hd
      cases hmf with
      | nil => rfl
      | cons n t ns2 ts2 hmt hmf2 =>
        cases hmt with
        | mk n ts3 hf =>
          rw [depthF, depthT] at hd
          omega
  | succ f ih =>
    have htree : ∀ n t, MatTree ch tx n t → depthT t ≤ f + 1 →
        matNode ch tx (f + 1) n = t := by
      intro n t hmt hd
      cases hmt with
      | mk n ts hf =>
        rw [depthT] at hd
        show OTask.mk (tx n) n.level ((ch n.id).map (matNode ch tx f)) = _
        rw [ih.2 (ch n.id) ts hf (by omega)]
    refine ⟨htree, ?_⟩
    intro ns ts hmf hd
    induction ns generalizing ts with
    | nil => cases hmf; rfl
    | cons n ns2 ihn =>
      cases hmf with
      | cons _ t _ ts2 hmt hmf2 =>
        rw [depthF] at hd
        rw [List.map_cons, ihn ts2 hmf2 (by omega), htree n t hmt (by omega)]

mutual

/-- Number of tasks in a tree. -/
def countT : OTask → Nat
  | .mk _ _ ch => 1 + countF ch

/-- Number of tasks in a forest. -/
def countF : List OTask → Nat
  | [] => 0
  | t :: ts => countT t + countF ts

end

/-- Static shape of a `buildForestTasks` call: the counter advances by the
task count, the emitted node ids are exactly the consecutive fresh ids in
preorder, and every emitted edge points into the fresh range while leaving
from the given parent or from inside the range. -/
theorem buildForestTasks_static :
    ∀ ts : List OTask, ∀ ag pg pid lvl nid,
      (buildForestTasks ag pg pid lvl ts nid).2.2 = nid + countF ts ∧
      ((buildForestTasks ag pg pid lvl ts nid).1.map (fun n => n.id) =
        (List.range' nid (countF ts)).map taskId) ∧
      (∀ e ∈ (buildForestTasks ag pg pid lvl ts nid).2.1,
        (∃ k, nid ≤ k ∧ k < nid + countF ts ∧ e.eto = taskId k) ∧
        (e.efrom = pid ∨
          ∃ k, nid ≤ k ∧ k < nid + countF ts ∧ e.efrom = taskId k)) := by
  have main := @OTask.forest_induction
    (fun t => ∀ ag pg pid lvl nid,
      (buildForestTasks ag pg pid lvl t.children nid).2.2 =
        nid + countF t.children ∧
      ((buildForestTasks ag pg pid lvl t.children nid).1.map (fun n => n.id) =
        (List.range' nid (countF t.children)).map taskId) ∧
      (∀ e ∈ (buildForestTasks ag pg pid lvl t.children nid).2.1,
        (∃ k, nid ≤ k ∧ k < nid + countF t.children ∧ e.eto = taskId k) ∧
        (e.efrom = pid ∨
          ∃ k, nid ≤ k ∧ k < nid + countF t.children ∧ e.efrom = taskId k)))
    (fun ts => ∀ ag pg pid lvl nid,
      (buildForestTasks ag pg pid lvl ts nid).2.2 = nid + countF ts ∧
      ((buildForestTasks ag pg pid lvl ts nid).1.map (fun n => n.id) =
        (List.range' nid (countF ts)).map taskId) ∧
      (∀ e ∈ (buildForestTasks ag pg pid lvl ts nid).2.1,
        (∃ k, nid ≤ k ∧ k < nid + countF ts ∧ e.eto = taskId k) ∧
        (e.efrom = pid ∨
          ∃ k, nid ≤ k ∧ k < nid + countF ts ∧ e.efrom = taskId k)))
    (fun text lvl children ih => ih)
    (by
      intro ag pg pid lvl nid
      refine ⟨by simp [buildForestTasks, countF], by simp [buildForestTasks, countF], ?_⟩
      intro e he
      exact absurd he (List.not_mem_nil e))
    (by
      intro t ts iht ihts ag pg pid lvl nid
      cases t with
      | mk text tlvl ch =>
        have hbuild : buildForestTasks ag pg pid lvl (OTask.mk text tlvl ch :: ts) nid =
            (let r1 := buildTask ag pg pid lvl (OTask.mk text tlvl ch) nid
             let r2 := buildForestTasks ag pg pid lvl ts r1.2.2
             (r1.1 ++ r2.1, r1.2.1 ++ r2.2.1, r2.2.2)) := rfl
        obtain ⟨ih1, ih2, ih3⟩ := iht ag (some (taskGroup ag pg text))
          (taskId nid) (lvl + 1) (nid + 1)
        obtain ⟨jh1, jh2, jh3⟩ := ihts ag pg pid lvl (nid + 1 + countF ch)
        simp only [OTask.children] at ih1 ih2 ih3
        have hcnt : countF (OTask.mk text tlvl ch :: ts) = 1 + countF ch + countF ts := by
          show countT (OTask.mk text tlvl ch) + countF ts = _
          show 1 + countF ch + countF ts = _
          rfl
        have hb2 : (buildTask ag pg pid lvl (OTask.mk text tlvl ch) nid).2.2 =
            nid + 1 + countF ch := by
          show (buildForestTasks ag _ (taskId nid) (lvl + 1) ch (nid + 1)).2.2 = _
          rw [ih1]
        have hbt1 : (buildTask ag pg pid lvl (OTask.mk text tlvl ch) nid).1 =
            taskNode ag pg lvl text ch nid ::
              (buildForestTasks ag (some (taskGroup ag pg text)) (taskId nid)
                (lvl + 1) ch (nid + 1)).1 := rfl
        have hbte : (buildTask ag pg pid lvl (OTask.mk text tlvl ch) nid).2.1 =
            taskEdge pid lvl nid ::
              (buildForestTasks ag (some (taskGroup ag pg text)) (taskId nid)
                (lvl + 1) ch (nid + 1)).2.1 := rfl
        have hrange : List.range' nid (countF (OTask.mk text tlvl ch :: ts)) =
            nid :: (List.range' (nid + 1) (countF ch) ++
              List.range' (nid + 1 + countF ch) (countF ts)) := by
          rw [hcnt]
          rw [show 1 + countF ch + countF ts = (countF ch + countF ts) + 1 by omega]
          rw [List.range'_succ]
          have h1 := List.range'_append (nid + 1) (countF ch) (countF ts) 1
          rw [show (nid + 1) + 1 * countF ch = nid + 1 + countF ch by omega] at h1
          rw [show countF ch + countF ts = countF ts + countF ch by omega, ← h1]
        rw [hbuild]
        show _ ∧ _ ∧ _
        refine ⟨?_, ?_, ?_⟩
        · show (buildForestTasks ag pg pid lvl ts
              (buildTask ag pg pid lvl (OTask.mk text tlvl ch) nid).2.2).2.2 = _
          rw [hb2, jh1, hcnt]
          omega
        · show ((buildTask ag pg pid lvl (OTask.mk text tlvl ch) nid).1 ++
              (buildForestTasks ag pg pid lvl ts
                (buildTask ag pg pid lvl (OTask.mk text tlvl ch) nid).2.2).1).map
              (fun n => n.id) = _
          rw [hbt1, hb2, hrange]
          rw [List.map_append, List.map_cons, List.map_cons, ih2, jh2,
            List.map_append]
          rfl
        · intro e he
          show (∃ k, nid ≤ k ∧ k < nid + countF (OTask.mk text tlvl ch :: ts) ∧
              e.eto = taskId k) ∧ _
          rw [hcnt]
          have hch1 : 1 ≤ countF (OTask.mk text tlvl ch :: ts) := by
            rw [hcnt]
            omega
          replace he : e ∈ taskEdge pid lvl nid ::
              ((buildForestTasks ag (some (taskGroup ag pg text)) (taskId nid)
                (lvl + 1) ch (nid + 1)).2.1 ++
              (buildForestTasks ag pg pid lvl ts
                (buildTask ag pg pid lvl (OTask.mk text tlvl ch) nid).2.2).2.1) := he
          rcases List.mem_cons.1 he with h | h
          · subst h
            refine ⟨⟨nid, le_rfl, by omega, rfl⟩, Or.inl rfl⟩
          rcases List.mem_append.1 h with h | h
          · obtain ⟨⟨k, hk1, hk2, hk3⟩, hfrom⟩ := ih3 e h
            refine ⟨⟨k, by omega, by omega, hk3⟩, ?_⟩
            rcases hfrom with h2 | ⟨k2, hk21, hk22, hk23⟩
            · exact Or.inr ⟨nid, le_rfl, by omega, h2⟩
            · exact Or.inr ⟨k2, by omega, by omega, hk23⟩
          · rw [hb2] at h
            obtain ⟨⟨k, hk1, hk2, hk3⟩, hfrom⟩ := jh3 e h
            refine ⟨⟨k, by omega, by omega, hk3⟩, ?_⟩
            rcases hfrom with h2 | ⟨k2, hk21, hk22, hk23⟩
            · exact Or.inl h2
            · exact Or.inr ⟨k2, by omega, by omega, hk23⟩)
  exact main.2

/-! ### Structural forest equivalence

"Same text values and same parent/child relationships": two forests are
equivalent when one can be turned into the other by permuting sibling
lists, keeping each node's text and its (equivalent) children — `level`
fields are not compared, since re-parsing re-derives them from depth. -/
inductive FEquiv : List OTask → List OTask → Prop where
  | nil : FEquiv [] []
  | cons : ∀ text l1 l2 ch1 ch2 F G, FEquiv ch1 ch2 → FEquiv F G →
      FEquiv (OTask.mk text l1 ch1 :: F) (OTask.mk text l2 ch2 :: G)
  | swap : ∀ a b F, FEquiv (a :: b :: F) (b :: a :: F)
  | trans : ∀ F G H, FEquiv F G → FEquiv G H → FEquiv F H

theorem FEquiv_refl : ∀ F, FEquiv F F := by
  have main := @OTask.forest_induction
    (fun t => FEquiv t.children t.children)
    (fun ts => FEquiv ts ts)
    (fun text lvl children ih => ih)
    FEquiv.nil
    (by
      intro t ts iht ihts
      cases t with
      | mk text lvl ch => exact FEquiv.cons text lvl lvl ch ch ts ts iht ihts)
  exact main.2

theorem FEquiv_of_perm {F G : List OTask} (h : F.Perm G) : FEquiv F G := by
  induction h with
  | nil => exact FEquiv.nil
  | cons x _ ih =>
    cases x with
    | mk text lvl ch =>
      exact FEquiv.cons text lvl lvl ch ch _ _ (FEquiv_refl ch) ih
  | swap x y l => exact FEquiv.swap y x l
  | trans _ _ ih1 ih2 => exact FEquiv.trans _ _ _ ih1 ih2

/-- Transport a pointwise materialization along a permutation of the nodes. -/
theorem MatForest_perm {ch : Str → List GNode} {tx : GNode → Str}
    {ns ns2 : List GNode} (hperm : ns.Perm ns2) :
    ∀ F, MatForest ch tx ns F → ∃ F2, MatForest ch tx ns2 F2 ∧ F.Perm F2 := by
  induction hperm with
  | nil =>
    intro F hm
    cases hm
    exact ⟨[], MatForest.nil, List.Perm.nil⟩
  | cons x hp ih =>
    intro F hm
    cases hm with
    | cons _ t _ ts hmt hmf =>
      obtain ⟨F2, hm2, hp2⟩ := ih ts hmf
      exact ⟨t :: F2, MatForest.cons _ _ _ _ hmt hm2, hp2.cons t⟩
  | swap x y l =>
    intro F hm
    cases hm with
    | cons _ t1 _ _ hmt1 hrest =>
      cases hrest with
      | cons _ t2 _ ts hmt2 hmf =>
        exact ⟨t2 :: t1 :: ts,
          MatForest.cons _ _ _ _ hmt2 (MatForest.cons _ _ _ _ hmt1 hmf),
          List.Perm.swap t2 t1 ts⟩
  | trans hp1 hp2 ih1 ih2 =>
    intro F hm
    obtain ⟨F2, hm2, hperm2⟩ := ih1 F hm
    obtain ⟨F3, hm3, hperm3⟩ := ih2 F2 hm2
    exact ⟨F3, hm3, hperm2.trans hperm3⟩

theorem WfF_iff_forall : ∀ F : List OTask, WfF F ↔ ∀ t ∈ F, WfT t := by
  intro F
  induction F with
  | nil => exact ⟨fun _ t ht => absurd ht (List.not_mem_nil t), fun _ => WfF.nil⟩
  | cons t ts ih =>
    constructor
    · intro h x hx
      cases h with
      | cons _ _ ht hts =>
        rcases List.mem_cons.1 hx with h2 | h2
        · exact h2 ▸ ht
        · exact (ih.1 hts) x h2
    · intro h
      exact WfF.cons t ts (h t (by simp)) (ih.2 fun x hx => h x (by simp [hx]))

theorem depthF_le_iff : ∀ (F : List OTask) (c : Nat),
    depthF F ≤ c ↔ ∀ t ∈ F, depthT t ≤ c := by
  intro F c
  induction F with
  | nil =>
    simp [depthF]
  | cons t ts ih =>
    rw [depthF]
    constructor
    · intro h x hx
      rcases List.mem_cons.1 hx with h2 | h2
      · subst h2
        omega
      · exact ih.1 (by omega) x h2
    · intro h
      have h1 := h t (by simp)
      have h2 := ih.2 fun x hx => h x (by simp [hx])
      omega

/-! ### Lookup helpers -/

theorem lookupNode_cons_ne {n : GNode} {N : List GNode} {i : Str}
    (h : n.id ≠ i) : lookupNode (n :: N) i = lookupNode N i := by
  unfold lookupNode
  rw [List.find?_cons_of_neg]
  simp [h]

theorem lookupNode_cons_self (n : GNode) (N : List GNode) :
    lookupNode (n :: N) n.id = some n := by
  unfold lookupNode
  rw [List.find?_cons_of_pos]
  simp

theorem lookupNode_append (N1 N2 : List GNode) (i : Str) :
    lookupNode (N1 ++ N2) i = (lookupNode N1 i).or (lookupNode N2 i) :=
  List.find?_append

theorem lookupNode_eq_none {N : List GNode} {i : Str}
    (h : ¬ i ∈ N.map fun n => n.id) : lookupNode N i = none := by
  apply find?_of_none
  intro n hn
  have : ¬ n.id = i := fun hc => h (by
    rw [← hc]
    exact List.mem_map_of_mem _ hn)
  simp [this]

theorem lookupNode_isSome {N : List GNode} {i : Str}
    (h : i ∈ N.map fun n => n.id) : (lookupNode N i).isSome := by
  induction N with
  | nil => simp at h
  | cons n rest ih =>
    by_cases hn : n.id = i
    · subst hn
      rw [lookupNode_cons_self]
      rfl
    · rw [lookupNode_cons_ne hn]
      refine ih ?_
      rcases List.mem_cons.1 h with h2 | h2
      · exact absurd h2.symm hn
      · exact h2

theorem taskId_mem_range_map {k s n : Nat} :
    taskId k ∈ (List.range' s n).map taskId ↔ s ≤ k ∧ k < s + n := by
  rw [List.mem_map]
  constructor
  · rintro ⟨j, hj, heq⟩
    obtain rfl := taskId_injective heq
    exact List.mem_range'_1.1 hj
  · intro h
    exact ⟨k, List.mem_range'_1.2 h, rfl⟩

/-- Materialization correctness for one `buildForestTasks` call: if the
global document's edges-from and node-lookup agree with this call's local
output on the call's fresh id range, and the parent id is not a fresh id,
then reading the parent's children back out of the global document (in edge
order) materializes a forest equivalent to the call's input forest. -/
theorem buildForestTasks_mat :
    ∀ ts : List OTask, WfF ts → ∀ ag pg pid lvl nid (N : List GNode)
      (E : List GEdge),
      (∀ k, nid ≤ k → k < nid + countF ts →
        E.filter (fun e => e.efrom = taskId k) =
          (buildForestTasks ag pg pid lvl ts nid).2.1.filter
            (fun e => e.efrom = taskId k)) →
      (∀ k, nid ≤ k → k < nid + countF ts →
        lookupNode N (taskId k) =
          lookupNode (buildForestTasks ag pg pid lvl ts nid).1 (taskId k)) →
      (∀ k, nid ≤ k → k < nid + countF ts → pid ≠ taskId k) →
      ∃ F, MatForest (hierChildren N E) hierText
          (((buildForestTasks ag pg pid lvl ts nid).2.1.filter
              (fun e => e.efrom = pid)).filterMap
            (fun e => lookupNode N e.eto)) F ∧
        FEquiv F ts ∧ WfF F ∧ (∀ u ∈ F, depthT u ≤ countF ts) := by
  have main := @OTask.forest_induction
    (fun t => WfF t.children → ∀ ag pg pid lvl nid (N : List GNode)
      (E : List GEdge),
      (∀ k, nid ≤ k → k < nid + countF t.children →
        E.filter (fun e => e.efrom = taskId k) =
          (buildForestTasks ag pg pid lvl t.children nid).2.1.filter
            (fun e => e.efrom = taskId k)) →
      (∀ k, nid ≤ k → k < nid + countF t.children →
        lookupNode N (taskId k) =
          lookupNode (buildForestTasks ag pg pid lvl t.children nid).1 (taskId k)) →
      (∀ k, nid ≤ k → k < nid + countF t.children → pid ≠ taskId k) →
      ∃ F, MatForest (hierChildren N E) hierText
          (((buildForestTasks ag pg pid lvl t.children nid).2.1.filter
              (fun e => e.efrom = pid)).filterMap
            (fun e => lookupNode N e.eto)) F ∧
        FEquiv F t.children ∧ WfF F ∧ (∀ u ∈ F, depthT u ≤ countF t.children))
    (fun ts => WfF ts → ∀ ag pg pid lvl nid (N : List GNode)
      (E : List GEdge),
      (∀ k, nid ≤ k → k < nid + countF ts →
        E.filter (fun e => e.efrom = taskId k) =
          (buildForestTasks ag pg pid lvl ts nid).2.1.filter
            (fun e => e.efrom = taskId k)) →
      (∀ k, nid ≤ k → k < nid + countF ts →
        lookupNode N (taskId k) =
          lookupNode (buildForestTasks ag pg pid lvl ts nid).1 (taskId k)) →
      (∀ k, nid ≤ k → k < nid + countF ts → pid ≠ taskId k) →
      ∃ F, MatForest (hierChildren N E) hierText
          (((buildForestTasks ag pg pid lvl ts nid).2.1.filter
              (fun e => e.efrom = pid)).filterMap
            (fun e => lookupNode N e.eto)) F ∧
        FEquiv F ts ∧ WfF F ∧ (∀ u ∈ F, depthT u ≤ countF ts))
    (by
      intro text lvl children ih
      simpa only [OTask.children] using ih)
    (by
      intro _ ag pg pid lvl nid N E hE hN hfresh
      refine ⟨[], ?_, FEquiv.nil, WfF.nil, by intro u hu; exact absurd hu (List.not_mem_nil u)⟩
      show MatForest _ _ (((([] : List GEdge)).filter _).filterMap _) []
      exact MatForest.nil)
    (by
      intro t ts iht ihts hwf ag pg pid lvl nid N E hE hN hfresh
      cases t with
      | mk text tlvl ch =>
        cases hwf with
        | cons _ _ hwt hwts =>
          cases hwt with
          | mk _ _ _ htext hch =>
            simp only [OTask.children] at iht
            have hcnt : countF (OTask.mk text tlvl ch :: ts) =
                1 + countF ch + countF ts := by
              show countT (OTask.mk text tlvl ch) + countF ts = _
              show 1 + countF ch + countF ts = _
              rfl
            obtain ⟨sch1, sch2, sch3⟩ := buildForestTasks_static ch ag
              (some (taskGroup ag pg text)) (taskId nid) (lvl + 1) (nid + 1)
            obtain ⟨sr1, sr2, sr3⟩ := buildForestTasks_static ts ag pg pid lvl
              (nid + 1 + countF ch)
            have hnodes : (buildForestTasks ag pg pid lvl
                (OTask.mk text tlvl ch :: ts) nid).1 =
                taskNode ag pg lvl text ch nid ::
                  ((buildForestTasks ag (some (taskGroup ag pg text))
                      (taskId nid) (lvl + 1) ch (nid + 1)).1 ++
                   (buildForestTasks ag pg pid lvl ts
                      (nid + 1 + countF ch)).1) := by
              have h0 : (buildForestTasks ag pg pid lvl
                  (OTask.mk text tlvl ch :: ts) nid).1 =
                  taskNode ag pg lvl text ch nid ::
                    ((buildForestTasks ag (some (taskGroup ag pg text))
                        (taskId nid) (lvl + 1) ch (nid + 1)).1 ++
                     (buildForestTasks ag pg pid lvl ts
                        ((buildForestTasks ag (some (taskGroup ag pg text))
                          (taskId nid) (lvl + 1) ch (nid + 1)).2.2)).1) := rfl
              rw [h0, sch1]
            have hedges : (buildForestTasks ag pg pid lvl
                (OTask.mk text tlvl ch :: ts) nid).2.1 =
                taskEdge pid lvl nid ::
                  ((buildForestTasks ag (some (taskGroup ag pg text))
                      (taskId nid) (lvl + 1) ch (nid + 1)).2.1 ++
                   (buildForestTasks ag pg pid lvl ts
                      (nid + 1 + countF ch)).2.1) := by
              have h0 : (buildForestTasks ag pg pid lvl
                  (OTask.mk text tlvl ch :: ts) nid).2.1 =
                  taskEdge pid lvl nid ::
                    ((buildForestTasks ag (some (taskGroup ag pg text))
                        (taskId nid) (lvl + 1) ch (nid + 1)).2.1 ++
                     (buildForestTasks ag pg pid lvl ts
                        ((buildForestTasks ag (some (taskGroup ag pg text))
                          (taskId nid) (lvl + 1) ch (nid + 1)).2.2)).2.1) := rfl
              rw [h0, sch1]
            have hEch : ∀ k, nid + 1 ≤ k → k < nid + 1 + countF ch →
                E.filter (fun e => e.efrom = taskId k) =
                  (buildForestTasks ag (some (taskGroup ag pg text))
                    (taskId nid) (lvl + 1) ch (nid + 1)).2.1.filter
                    (fun e => e.efrom = taskId k) := by
              intro k hk1 hk2
              rw [hE k (by omega) (by rw [hcnt]; omega), hedges]
              rw [List.filter_cons_of_neg (by
                simpa [taskEdge] using hfresh k (by omega) (by rw [hcnt]; omega))]
              rw [List.filter_append]
              have hnil : (buildForestTasks ag pg pid lvl ts
                  (nid + 1 + countF ch)).2.1.filter
                    (fun e => e.efrom = taskId k) = [] := by
                rw [List.filter_eq_nil_iff]
                intro e he
                simp only [decide_eq_true_eq]
                obtain ⟨_, hfrom⟩ := sr3 e he
                rcases hfrom with h2 | ⟨k2, hk21, hk22, hk23⟩
                · rw [h2]
                  exact hfresh k (by omega) (by rw [hcnt]; omega)
                · rw [hk23]
                  intro hc
                  have := taskId_injective hc
                  omega
              rw [hnil, List.append_nil]
            have hNch : ∀ k, nid + 1 ≤ k → k < nid + 1 + countF ch →
                lookupNode N (taskId k) =
                  lookupNode (buildForestTasks ag (some (taskGroup ag pg text))
                    (taskId nid) (lvl + 1) ch (nid + 1)).1 (taskId k) := by
              intro k hk1 hk2
              have hkne : taskId nid ≠ taskId k := fun hc => by
                have := taskId_injective hc
                omega
              rw [hN k (by omega) (by rw [hcnt]; omega), hnodes,
                lookupNode_cons_ne (by simpa [taskNode] using hkne),
                lookupNode_append]
              have hmem : taskId k ∈ (buildForestTasks ag
                  (some (taskGroup ag pg text)) (taskId nid) (lvl + 1) ch
                  (nid + 1)).1.map (fun n => n.id) := by
                rw [sch2]
                exact taskId_mem_range_map.2 ⟨by omega, by omega⟩
              obtain ⟨x, hx⟩ := Option.isSome_iff_exists.1 (lookupNode_isSome hmem)
              rw [hx]
              rfl
            have hfreshch : ∀ k, nid + 1 ≤ k → k < nid + 1 + countF ch →
                taskId nid ≠ taskId k := fun k hk1 hk2 hc => by
              have := taskId_injective hc
              omega
            obtain ⟨Fch, hmch, heqch, hwfch, hdch⟩ := iht hch ag
              (some (taskGroup ag pg text)) (taskId nid) (lvl + 1) (nid + 1)
              N E hEch hNch hfreshch
            have hErest : ∀ k, nid + 1 + countF ch ≤ k →
                k < nid + 1 + countF ch + countF ts →
                E.filter (fun e => e.efrom = taskId k) =
                  (buildForestTasks ag pg pid lvl ts
                    (nid + 1 + countF ch)).2.1.filter
                    (fun e => e.efrom = taskId k) := by
              intro k hk1 hk2
              rw [hE k (by omega) (by rw [hcnt]; omega), hedges]
              rw [List.filter_cons_of_neg (by
                simpa [taskEdge] using hfresh k (by omega) (by rw [hcnt]; omega))]
              rw [List.filter_append]
              have hnil : (buildForestTasks ag (some (taskGroup ag pg text))
                  (taskId nid) (lvl + 1) ch (nid + 1)).2.1.filter
                    (fun e => e.efrom = taskId k) = [] := by
                rw [List.filter_eq_nil_iff]
                intro e he
                simp only [decide_eq_true_eq]
                obtain ⟨_, hfrom⟩ := sch3 e he
                rcases hfrom with h2 | ⟨k2, hk21, hk22, hk23⟩
                · rw [h2]
                  intro hc
                  have := taskId_injective hc
                  omega
                · rw [hk23]
                  intro hc
                  have := taskId_injective hc
                  omega
              rw [hnil, List.nil_append]
            have hNrest : ∀ k, nid + 1 + countF ch ≤ k →
                k < nid + 1 + countF ch + countF ts →
                lookupNode N (taskId k) =
                  lookupNode (buildForestTasks ag pg pid lvl ts
                    (nid + 1 + countF ch)).1 (taskId k) := by
              intro k hk1 hk2
              have hkne : taskId nid ≠ taskId k := fun hc => by
                have := taskId_injective hc
                omega
              rw [hN k (by omega) (by rw [hcnt]; omega), hnodes,
                lookupNode_cons_ne (by simpa [taskNode] using hkne),
                lookupNode_append]
              have hnone : lookupNode (buildForestTasks ag
                  (some (taskGroup ag pg text)) (taskId nid) (lvl + 1) ch
                  (nid + 1)).1 (taskId k) = none := by
                apply lookupNode_eq_none
                rw [sch2]
                intro hmem
                have := taskId_mem_range_map.1 hmem
                omega
              rw [hnone, Option.none_or]
            have hfreshrest : ∀ k, nid + 1 + countF ch ≤ k →
                k < nid + 1 + countF ch + countF ts → pid ≠ taskId k :=
              fun k hk1 hk2 => hfresh k (by omega) (by rw [hcnt]; omega)
            obtain ⟨Frest, hmrest, heqrest, hwfrest, hdrest⟩ := ihts hwts ag pg
              pid lvl (nid + 1 + countF ch) N E hErest hNrest hfreshrest
            have hsome0 : lookupNode N (taskId nid) =
                some (taskNode ag pg lvl text ch nid) := by
              rw [hN nid le_rfl (by rw [hcnt]; omega), hnodes]
              exact lookupNode_cons_self _ _
            have hEnid : E.filter (fun e => e.efrom = taskId nid) =
                (buildForestTasks ag (some (taskGroup ag pg text))
                  (taskId nid) (lvl + 1) ch (nid + 1)).2.1.filter
                  (fun e => e.efrom = taskId nid) := by
              rw [hE nid le_rfl (by rw [hcnt]; omega), hedges]
              rw [List.filter_cons_of_neg (by
                simpa [taskEdge] using hfresh nid le_rfl (by rw [hcnt]; omega))]
              rw [List.filter_append]
              have hnil : (buildForestTasks ag pg pid lvl ts
                  (nid + 1 + countF ch)).2.1.filter
                    (fun e => e.efrom = taskId nid) = [] := by
                rw [List.filter_eq_nil_iff]
                intro e he
                simp only [decide_eq_true_eq]
                obtain ⟨_, hfrom⟩ := sr3 e he
                rcases hfrom with h2 | ⟨k2, hk21, hk22, hk23⟩
                · rw [h2]
                  exact hfresh nid le_rfl (by rw [hcnt]; omega)
                · rw [hk23]
                  intro hc
                  have := taskId_injective hc
                  omega
              rw [hnil, List.append_nil]
            have hraw : rawChildren N E (taskId nid) =
                ((buildForestTasks ag (some (taskGroup ag pg text))
                    (taskId nid) (lvl + 1) ch (nid + 1)).2.1.filter
                  (fun e => e.efrom = taskId nid)).filterMap
                  (fun e => lookupNode N e.eto) := by
              unfold rawChildren
              rw [← hEnid]
              congr 1
              apply List.filter_congr
              intro e he
              dsimp only
              rw [decide_eq_decide]
              by_cases hfr : e.efrom = taskId nid
              · have h1 : (lookupNode N e.efrom).isSome := by
                  rw [hfr, hsome0]
                  rfl
                have hmemch : e ∈ (buildForestTasks ag
                    (some (taskGroup ag pg text)) (taskId nid) (lvl + 1) ch
                    (nid + 1)).2.1 := by
                  have hm : e ∈ E.filter (fun e => e.efrom = taskId nid) :=
                    List.mem_filter.2 ⟨he, by simpa using hfr⟩
                  rw [hEnid] at hm
                  exact (List.mem_filter.1 hm).1
                obtain ⟨⟨k, hk1, hk2, hk3⟩, _⟩ := sch3 e hmemch
                have h2 : (lookupNode N e.eto).isSome := by
                  rw [hk3, hNch k hk1 hk2]
                  apply lookupNode_isSome
                  rw [sch2]
                  exact taskId_mem_range_map.2 ⟨hk1, hk2⟩
                have h3 : e.eto ≠ sl "root" := by
                  rw [hk3]
                  exact taskId_ne_root k
                exact ⟨fun h => h.1, fun _ => ⟨hfr, h1, h2, h3⟩⟩
              · exact ⟨fun h => absurd h.1 hfr, fun h => absurd h hfr⟩
            obtain ⟨Fs, hmFs, hpFs⟩ := MatForest_perm
              ((List.mergeSort_perm _ childLe).symm) Fch hmch
            have hmFs2 : MatForest (hierChildren N E) hierText
                (hierChildren N E (taskId nid)) Fs := by
              show MatForest (hierChildren N E) hierText
                ((rawChildren N E (taskId nid)).mergeSort childLe) Fs
              rw [hraw]
              exact hmFs
            have htx : hierText (taskNode ag pg lvl text ch nid) = text := by
              show (if text = [] then _ else text) = text
              rw [if_neg htext.1]
            have htreeHead : MatTree (hierChildren N E) hierText
                (taskNode ag pg lvl text ch nid) (OTask.mk text lvl Fs) := by
              have h := MatTree.mk (taskNode ag pg lvl text ch nid) Fs hmFs2
              rw [htx] at h
              exact h
            have hlist : ((buildForestTasks ag pg pid lvl
                  (OTask.mk text tlvl ch :: ts) nid).2.1.filter
                  (fun e => e.efrom = pid)).filterMap
                  (fun e => lookupNode N e.eto) =
                taskNode ag pg lvl text ch nid ::
                  (((buildForestTasks ag pg pid lvl ts
                      (nid + 1 + countF ch)).2.1.filter
                    (fun e => e.efrom = pid)).filterMap
                    (fun e => lookupNode N e.eto)) := by
              rw [hedges]
              rw [List.filter_cons_of_pos (by simp [taskEdge])]
              rw [List.filter_append]
              have hnil : (buildForestTasks ag (some (taskGroup ag pg text))
                  (taskId nid) (lvl + 1) ch (nid + 1)).2.1.filter
                    (fun e => e.efrom = pid) = [] := by
                rw [List.filter_eq_nil_iff]
                intro e he
                simp only [decide_eq_true_eq]
                obtain ⟨_, hfrom⟩ := sch3 e he
                rcases hfrom with h2 | ⟨k2, hk21, hk22, hk23⟩
                · rw [h2]
                  exact fun hc =>
                    hfresh nid le_rfl (by rw [hcnt]; omega) hc.symm
                · rw [hk23]
                  exact fun hc =>
                    hfresh k2 (by omega) (by rw [hcnt]; omega) hc.symm
              rw [hnil, List.nil_append]
              exact List.filterMap_cons_some hsome0
            refine ⟨OTask.mk text lvl Fs :: Frest, ?_, ?_, ?_, ?_⟩
            · rw [hlist]
              exact MatForest.cons _ _ _ _ htreeHead hmrest
            · exact FEquiv.cons text lvl tlvl Fs ch Frest ts
                (FEquiv.trans _ _ _ (FEquiv_of_perm hpFs.symm) heqch) heqrest
            · refine WfF.cons _ _ (WfT.mk text lvl Fs htext ?_) hwfrest
              rw [WfF_iff_forall]
              intro u hu
              exact (WfF_iff_forall Fch).1 hwfch u (hpFs.mem_iff.2 hu)
            · intro u hu
              rcases List.mem_cons.1 hu with h2 | h2
              · subst h2
                have hds : depthF Fs ≤ countF ch := by
                  rw [depthF_le_iff]
                  intro x hx
                  exact hdch x (hpFs.mem_iff.2 hx)
                rw [depthT, hcnt]
                omega
              · have := hdrest u h2
                rw [hcnt]
                omega)
  exact main.2

/-- Reindexing only rewrites `level` fields, so the reindexed forest is
structurally equivalent to the original. -/
theorem reindexF_equiv : ∀ (d : Nat) (H : List OTask), FEquiv (reindexF d H) H := by
  have main := @OTask.forest_induction
    (fun t => ∀ d, FEquiv (reindexF d t.children) t.children)
    (fun ts => ∀ d, FEquiv (reindexF d ts) ts)
    (by
      intro text lvl children ih
      simpa only [OTask.children] using ih)
    (fun d => FEquiv.nil)
    (by
      intro t ts iht ihts d
      cases t with
      | mk text lvl ch =>
        simp only [OTask.children] at iht
        show FEquiv (OTask.mk text d (reindexF (d + 1) ch) :: reindexF d ts)
          (OTask.mk text lvl ch :: ts)
        exact FEquiv.cons text d lvl (reindexF (d + 1) ch) ch _ _
          (iht (d + 1)) (ihts d))
  exact fun d H => main.2 H d

/-- C3: for every (reconstructible) forest `T`, building the graph from
`T` (`buildNetworkData`), reconstructing the outline text from that graph
(`buildHierarchyFromNetwork` then `hierarchyToText`: originalText with
2-space indentation per level, children sorted by level then id, root
skipped), and re-parsing the text (`parseHierarchicalTasks`) produces a
forest structurally identical to `T`: same text values and same
parent/child relationships (node ids and levels may differ between the
two passes). -/
theorem buildNetworkData_roundtrip_structural (T : List OTask) (ag : Bool)
    (h : WfF T) :
    FEquiv (parseHierarchicalTasks (hierarchyToText
      (buildHierarchyFromNetwork (buildNetworkData T ag).1
        (buildNetworkData T ag).2))) T := by
  obtain ⟨s1, s2, s3⟩ := buildForestTasks_static T ag none (sl "root") 1 0
  have hE : ∀ k, 0 ≤ k → k < 0 + countF T →
      (buildNetworkData T ag).2.filter (fun e => e.efrom = taskId k) =
        (buildForestTasks ag none (sl "root") 1 T 0).2.1.filter
          (fun e => e.efrom = taskId k) := fun k _ _ => rfl
  have hN : ∀ k, 0 ≤ k → k < 0 + countF T →
      lookupNode (buildNetworkData T ag).1 (taskId k) =
        lookupNode (buildForestTasks ag none (sl "root") 1 T 0).1
          (taskId k) := by
    intro k _ _
    show lookupNode (rootNode ::
      (buildForestTasks ag none (sl "root") 1 T 0).1) (taskId k) = _
    rw [lookupNode_cons_ne
      (fun hc => taskId_ne_root k ((show sl "root" = taskId k from hc).symm))]
  have hfresh : ∀ k, 0 ≤ k → k < 0 + countF T → sl "root" ≠ taskId k :=
    fun k _ _ hc => taskId_ne_root k hc.symm
  obtain ⟨F, hmF, heqF, hwfF, hdF⟩ := buildForestTasks_mat T h ag none
    (sl "root") 1 0 (buildNetworkData T ag).1 (buildNetworkData T ag).2
    hE hN hfresh
  have hrootSome : lookupNode (buildNetworkData T ag).1 (sl "root") =
      some rootNode := by
    show lookupNode (rootNode ::
      (buildForestTasks ag none (sl "root") 1 T 0).1) (sl "root") = _
    exact lookupNode_cons_self _ _
  have hraw : rawChildren (buildNetworkData T ag).1 (buildNetworkData T ag).2
      (sl "root") =
      ((buildForestTasks ag none (sl "root") 1 T 0).2.1.filter
        (fun e => e.efrom = sl "root")).filterMap
        (fun e => lookupNode (buildNetworkData T ag).1 e.eto) := by
    unfold rawChildren
    have hEroot : (buildNetworkData T ag).2.filter
        (fun e => e.efrom = sl "root") =
        (buildForestTasks ag none (sl "root") 1 T 0).2.1.filter
          (fun e => e.efrom = sl "root") := rfl
    rw [← hEroot]
    congr 1
    apply List.filter_congr
    intro e he
    dsimp only
    rw [decide_eq_decide]
    by_cases hfr : e.efrom = sl "root"
    · have ha : (lookupNode (buildNetworkData T ag).1 e.efrom).isSome := by
        rw [hfr, hrootSome]
        rfl
      have he2 : e ∈ (buildForestTasks ag none (sl "root") 1 T 0).2.1 := he
      obtain ⟨⟨k, hk1, hk2, hk3⟩, _⟩ := s3 e he2
      have hb : (lookupNode (buildNetworkData T ag).1 e.eto).isSome := by
        rw [hk3, hN k hk1 hk2]
        apply lookupNode_isSome
        rw [s2]
        exact taskId_mem_range_map.2 ⟨hk1, hk2⟩
      have hc : e.eto ≠ sl "root" := by
        rw [hk3]
        exact taskId_ne_root k
      exact ⟨fun hx => hx.1, fun _ => ⟨hfr, ha, hb, hc⟩⟩
    · exact ⟨fun hx => absurd hx.1 hfr, fun hx => absurd hx hfr⟩
  obtain ⟨Fs, hmFs, hpFs⟩ := MatForest_perm
    ((List.mergeSort_perm _ childLe).symm) F hmF
  have hmFs2 : MatForest
      (hierChildren (buildNetworkData T ag).1 (buildNetworkData T ag).2)
      hierText
      (hierChildren (buildNetworkData T ag).1 (buildNetworkData T ag).2
        (sl "root")) Fs := by
    show MatForest _ _ ((rawChildren (buildNetworkData T ag).1
      (buildNetworkData T ag).2 (sl "root")).mergeSort childLe) Fs
    rw [hraw]
    exact hmFs
  have hlen : (buildForestTasks ag none (sl "root") 1 T 0).1.length =
      countF T := by
    have hc := congrArg List.length s2
    simpa using hc
  have hdepth : depthF Fs ≤ (buildNetworkData T ag).1.length := by
    have hle : depthF Fs ≤ countF T := by
      rw [depthF_le_iff]
      intro u hu
      exact hdF u (hpFs.mem_iff.2 hu)
    have hlen2 : (buildNetworkData T ag).1.length = countF T + 1 := by
      show (rootNode ::
        (buildForestTasks ag none (sl "root") 1 T 0).1).length = _
      rw [List.length_cons, hlen]
    omega
  have hbh : buildHierarchyFromNetwork (buildNetworkData T ag).1
      (buildNetworkData T ag).2 = Fs := by
    unfold buildHierarchyFromNetwork
    rw [hrootSome]
    show (hierChildren (buildNetworkData T ag).1 (buildNetworkData T ag).2
      (sl "root")).map
        (matNode (hierChildren (buildNetworkData T ag).1
          (buildNetworkData T ag).2) hierText
          (buildNetworkData T ag).1.length) = Fs
    exact (matNode_of_MatTree _ _ _).2 _ Fs hmFs2 hdepth
  have hwfFs : WfF Fs := by
    rw [WfF_iff_forall]
    intro u hu
    exact (WfF_iff_forall F).1 hwfF u (hpFs.mem_iff.2 hu)
  rw [hbh, parse_hierarchyToText Fs hwfFs]
  exact FEquiv.trans _ _ _ (reindexF_equiv 0 Fs)
    (FEquiv.trans _ _ _ (FEquiv_of_perm hpFs.symm) heqF)

theorem buildNetworkData_roundtrip_structural_witness :
    FEquiv (parseHierarchicalTasks (hierarchyToText
      (buildHierarchyFromNetwork
        (buildNetworkData [OTask.mk (sl "Design the layout") 0
            [OTask.mk (sl "Pick colors") 1 []],
          OTask.mk (sl "Write tests") 0 []] true).1
        (buildNetworkData [OTask.mk (sl "Design the layout") 0
            [OTask.mk (sl "Pick colors") 1 []],
          OTask.mk (sl "Write tests") 0 []] true).2)))
      [OTask.mk (sl "Design the layout") 0 [OTask.mk (sl "Pick colors") 1 []],
       OTask.mk (sl "Write tests") 0 []] :=
  buildNetworkData_roundtrip_structural _ true
    (WfF.cons _ _
      (WfT.mk _ _ _ ⟨by decide, by decide, by decide, by decide⟩
        (WfF.cons _ _
          (WfT.mk _ _ _ ⟨by decide, by decide, by decide, by decide⟩ WfF.nil)
          WfF.nil))
      (WfF.cons _ _
        (WfT.mk _ _ _ ⟨by decide, by decide, by decide, by decide⟩ WfF.nil)
        WfF.nil))

/-! ## Plain-text codec (src/import-export.js: exportToPlainText,
importFromText) -/

/-- The children linked under parent id `p` by `exportToPlainText`'s edge
loop: edges in insertion order whose two endpoints both resolve in the
node map (unlike the §4.4 mapper: no root-exclusion and no sorting). -/
def expChildren (N : List GNode) (E : List GEdge) (p : Str) : List GNode :=
  (E.filter fun e => e.efrom = p ∧ (lookupNode N e.efrom).isSome ∧
      (lookupNode N e.eto).isSome).filterMap
    fun e => lookupNode N e.eto

/-- `buildOutline` (src/import-export.js lines 58–70), fuel-bounded: a node
with id `root` is skipped and its children start over at level 0; any other
node emits `'  '.repeat(level) + node.label + '\n'` and recurses one level
deeper. The JavaScript recursion is unbounded; on the tree-shaped documents
this application produces the fuel passed by `exportToPlainText` is never
exhausted. -/
def buildOutline (ch : Str → List GNode) : Nat → GNode → Nat → Str
  | 0, _, _ => []
  | fuel + 1, n, level =>
    if n.id = sl "root" then
      ((ch n.id).map fun c => buildOutline ch fuel c 0).flatten
    else
      spacesN (2 * level) ++ n.label ++ ['\n'] ++
        ((ch n.id).map fun c => buildOutline ch fuel c (level + 1)).flatten

/-- `exportToPlainText` (src/import-export.js lines 30–74): the fixed
header, then the outline below the root node — or `(No data)` behind the
header when the document has no root. -/
def exportToPlainText (N : List GNode) (E : List GEdge) : Str :=
  match lookupNode N (sl "root") with
  | none => sl "# Mind Map Export\n\n(No data)"
  | some r => sl "# Mind Map Export\n\n" ++
      buildOutline (expChildren N E) N.length r 0

/-- `replace(/\t/g, '  ')`: expand every tab to two spaces. -/
def expandTabs2 (s : Str) : Str :=
  s.flatMap fun c => if c = '\t' then [' ', ' '] else [c]

/-- The importer's line filter (src/import-export.js lines 163–166): keep
lines whose trim is non-empty and does not start with `'#'`. -/
def keepLine (l : Str) : Bool :=
  jsTrim l ≠ [] && (jsTrim l).head? ≠ some '#'

/-- One stack entry of the text importer: `{id, level}`; the root sentinel
carries level `-1`. -/
structure TFrame where
  tid : Str
  tlevel : Int
  deriving DecidableEq, Repr

/-- The importer's stack pop: `while (stack.length > 1 &&
stack[stack.length - 1].level >= level) stack.pop()` (stack top is the list
head here). -/
def popTStack (level : Int) : List TFrame → List TFrame
  | [] => []
  | [f] => [f]
  | f :: g :: rest =>
    if level ≤ f.tlevel then popTStack level (g :: rest) else f :: g :: rest

/-- The importer's accumulated state: minted nodes and edges, the id
counter, and the parent stack. -/
structure TImpState where
  nodes : List GNode
  edges : List GEdge
  nextId : Nat
  stack : List TFrame
  deriving DecidableEq, Repr

/-- The fixed root node `importFromText` pushes first (visual font/size
fields not modelled; it carries no `title`/`originalText`). -/
def importRootNode : GNode :=
  { id := sl "root", label := sl "Mind Map", level := 0,
    shape := sl "dot", color := sl "#F59E0B" }

/-- The importer's per-line body (src/import-export.js lines 189–223):
compute the indentation level (each tab expanded to two spaces, then
divided by 2 flooring), trim the text, skip blank lines, pop the stack to
the parent, and mint the node and the edge from the parent. -/
def importLine (st : TImpState) (line : Str) : TImpState :=
  let spaces := expandTabs2 (leadingWs line)
  let level := spaces.length / 2
  let text := jsTrim line
  if text = [] then st
  else
    let nid := taskId st.nextId
    let stack2 := popTStack level st.stack
    let parent := stack2.headD (TFrame.mk (sl "root") (-1))
    let newNode : GNode :=
      ({ id := nid, label := text, level := level + 1, shape := sl "box" })
    let newEdge : GEdge :=
      ({ efrom := parent.tid, eto := nid, width := if level = 0 then 3 else 2 })
    { nodes := st.nodes ++ [newNode],
      edges := st.edges ++ [newEdge],
      nextId := st.nextId + 1,
      stack := TFrame.mk nid level :: stack2 }

/-- `importFromText` (src/import-export.js lines 161–230): split on
`/\r?\n/`, drop blank and `#`-comment lines, return the `null` sentinel
when nothing is left, otherwise run the indentation stack machine over the
kept lines, seeded with the fixed root node and the `{root, -1}` sentinel
frame (`metadata` is always empty and not modelled). -/
def importFromText (text : Str) : Option (List GNode × List GEdge) :=
  let lines := (splitLines text).filter keepLine
  if lines = [] then none
  else
    let fin := lines.foldl importLine
      (TImpState.mk [importRootNode] [] 0 [TFrame.mk (sl "root") (-1)])
    some (fin.nodes, fin.edges)

/-- A wrapped-label document: the root plus one child whose (display)
label holds an embedded newline — exactly the shape `buildNetworkData`
gives every leaf whose text wraps (§4.3's multi-line labels). -/
def cexWrapNode : GNode :=
  ({ id := sl "task_0", label := sl "aaa\nbbb", level := 1, shape := sl "box" })

/-- The single edge of the wrapped-label document. -/
def cexWrapEdge : GEdge :=
  ({ efrom := sl "root", eto := sl "task_0", width := 3 })

/-- C6 counterexample: the wrapped-label document has one non-root node,
labelled `"aaa\nbbb"`; exporting it to plain text and importing the result
back yields a document with two non-root sibling nodes labelled `"aaa"`
and `"bbb"` — neither the label text nor the parent/child nesting
survives, because the exporter emits the raw multi-line label and the
importer re-splits the text on newlines. -/
theorem exportToPlainText_importFromText_splits_wrapped_labels :
    [importRootNode, cexWrapNode].map (fun n => n.label) =
      [sl "Mind Map", sl "aaa\nbbb"] ∧
    (importFromText (exportToPlainText [importRootNode, cexWrapNode]
        [cexWrapEdge])).map (fun d => d.1.map fun n => n.label) =
      some [sl "Mind Map", sl "aaa", sl "bbb"] ∧
    (importFromText (exportToPlainText [importRootNode, cexWrapNode]
        [cexWrapEdge])).map (fun d => d.2.map fun e => e.efrom) =
      some [sl "root", sl "root"] := by
  refine ⟨rfl, ?_, ?_⟩ <;> rfl

/-! ### The importer's canonical documents

`importFromText` mints, for the outline of a label forest, the forest's
nodes in preorder with consecutive `task_k` ids and depth-indexed levels,
plus one edge from each parent. The pair of mutually recursive builders
below states that output shape; the round-trip theorem proves
`exportToPlainText` maps such a document back to the outline text and
`importFromText` maps the text back to the document. -/

/-- The node the importer mints for an outline line with text `text` at
depth `d`, as the `nid`-th task. -/
def impNode (text : Str) (d nid : Nat) : GNode :=
  ({ id := taskId nid, label := text, level := d + 1, shape := sl "box" })

/-- The edge the importer mints from the parent `pid` to the `nid`-th
task at depth `d`. -/
def impEdge (pid : Str) (d nid : Nat) : GEdge :=
  ({ efrom := pid, eto := taskId nid, width := if d = 0 then 3 else 2 })

mutual

/-- The node, edge and advanced counter the importer mints for one task of
the outline (text at depth `d` under parent `pid`), followed by its
children's. -/
def impTask (pid : Str) (d : Nat) (t : OTask) (nid : Nat) :
    List GNode × List GEdge × Nat :=
  match t with
  | .mk text _ children =>
    let res := impForest (taskId nid) (d + 1) children (nid + 1)
    (impNode text d nid :: res.1, impEdge pid d nid :: res.2.1, res.2.2)

/-- `impTask` over a sibling list. -/
def impForest (pid : Str) (d : Nat) (ts : List OTask) (nid : Nat) :
    List GNode × List GEdge × Nat :=
  match ts with
  | [] => ([], [], nid)
  | t :: rest =>
    let r1 := impTask pid d t nid
    let r2 := impForest pid d rest r1.2.2
    (r1.1 ++ r2.1, r1.2.1 ++ r2.2.1, r2.2.2)

end

/-- A label the plain-text codec transports faithfully: reconstructible
(non-empty, trimmed, single-line) and not beginning with `'#'` (which the
importer would drop as a comment). -/
def cleanText (s : Str) : Prop :=
  wfText s ∧ s.head? ≠ some '#'

mutual

/-- Every text in the tree is clean. -/
inductive CleanT : OTask → Prop where
  | mk : ∀ text lvl ch, cleanText text → CleanF ch → CleanT (.mk text lvl ch)

/-- Every text in the forest is clean. -/
inductive CleanF : List OTask → Prop where
  | nil : CleanF []
  | cons : ∀ t ts, CleanT t → CleanF ts → CleanF (t :: ts)

end

/-- Clean forests are in particular well-formed. -/
theorem CleanF_WfF : ∀ ts : List OTask, CleanF ts → WfF ts := by
  have main := @OTask.forest_induction
    (fun t => CleanT t → WfT t)
    (fun ts => CleanF ts → WfF ts)
    (by
      intro text lvl children ih hc
      cases hc with
      | mk _ _ _ hct hch => exact WfT.mk text lvl children hct.1 (ih hch))
    (fun _ => WfF.nil)
    (by
      intro t ts iht ihts hc
      cases hc with
      | cons _ _ hct hcts => exact WfF.cons t ts (iht hct) (ihts hcts))
  exact main.2

/-- Static shape of an `impForest` call: the counter advances by the task
count, the minted node ids are exactly the consecutive fresh ids in
preorder, and every minted edge points into the fresh range while leaving
from the given parent or from inside the range. -/
theorem impForest_static :
    ∀ ts : List OTask, ∀ pid d nid,
      (impForest pid d ts nid).2.2 = nid + countF ts ∧
      ((impForest pid d ts nid).1.map (fun n => n.id) =
        (List.range' nid (countF ts)).map taskId) ∧
      (∀ e ∈ (impForest pid d ts nid).2.1,
        (∃ k, nid ≤ k ∧ k < nid + countF ts ∧ e.eto = taskId k) ∧
        (e.efrom = pid ∨
          ∃ k, nid ≤ k ∧ k < nid + countF ts ∧ e.efrom = taskId k)) := by
  have main := @OTask.forest_induction
    (fun t => ∀ pid d nid,
      (impForest pid d t.children nid).2.2 = nid + countF t.children ∧
      ((impForest pid d t.children nid).1.map (fun n => n.id) =
        (List.range' nid (countF t.children)).map taskId) ∧
      (∀ e ∈ (impForest pid d t.children nid).2.1,
        (∃ k, nid ≤ k ∧ k < nid + countF t.children ∧ e.eto = taskId k) ∧
        (e.efrom = pid ∨
          ∃ k, nid ≤ k ∧ k < nid + countF t.children ∧ e.efrom = taskId k)))
    (fun ts => ∀ pid d nid,
      (impForest pid d ts nid).2.2 = nid + countF ts ∧
      ((impForest pid d ts nid).1.map (fun n => n.id) =
        (List.range' nid (countF ts)).map taskId) ∧
      (∀ e ∈ (impForest pid d ts nid).2.1,
        (∃ k, nid ≤ k ∧ k < nid + countF ts ∧ e.eto = taskId k) ∧
        (e.efrom = pid ∨
          ∃ k, nid ≤ k ∧ k < nid + countF ts ∧ e.efrom = taskId k)))
    (fun text lvl children ih => ih)
    (by
      intro pid d nid
      refine ⟨by simp [impForest, countF], by simp [impForest, countF], ?_⟩
      intro e he
      exact absurd he (List.not_mem_nil e))
    (by
      intro t ts iht ihts pid d nid
      cases t with
      | mk text tlvl ch =>
        obtain ⟨ih1, ih2, ih3⟩ := iht (taskId nid) (d + 1) (nid + 1)
        obtain ⟨jh1, jh2, jh3⟩ := ihts pid d (nid + 1 + countF ch)
        simp only [OTask.children] at ih1 ih2 ih3
        have hcnt : countF (OTask.mk text tlvl ch :: ts) =
            1 + countF ch + countF ts := by
          show countT (OTask.mk text tlvl ch) + countF ts = _
          show 1 + countF ch + countF ts = _
          rfl
        have hrange : List.range' nid (countF (OTask.mk text tlvl ch :: ts)) =
            nid :: (List.range' (nid + 1) (countF ch) ++
              List.range' (nid + 1 + countF ch) (countF ts)) := by
          rw [hcnt]
          rw [show 1 + countF ch + countF ts = (countF ch + countF ts) + 1 by omega]
          rw [List.range'_succ]
          have h1 := List.range'_append (nid + 1) (countF ch) (countF ts) 1
          rw [show (nid + 1) + 1 * countF ch = nid + 1 + countF ch by omega] at h1
          rw [show countF ch + countF ts = countF ts + countF ch by omega, ← h1]
        have hnodes : (impForest pid d (OTask.mk text tlvl ch :: ts) nid).1 =
            impNode text d nid ::
              ((impForest (taskId nid) (d + 1) ch (nid + 1)).1 ++
               (impForest pid d ts (nid + 1 + countF ch)).1) := by
          have h0 : (impForest pid d (OTask.mk text tlvl ch :: ts) nid).1 =
              impNode text d nid ::
                ((impForest (taskId nid) (d + 1) ch (nid + 1)).1 ++
                 (impForest pid d ts
                   ((impForest (taskId nid) (d + 1) ch (nid + 1)).2.2)).1) := rfl
          rw [h0, ih1]
        have hedges : (impForest pid d (OTask.mk text tlvl ch :: ts) nid).2.1 =
            impEdge pid d nid ::
              ((impForest (taskId nid) (d + 1) ch (nid + 1)).2.1 ++
               (impForest pid d ts (nid + 1 + countF ch)).2.1) := by
          have h0 : (impForest pid d (OTask.mk text tlvl ch :: ts) nid).2.1 =
              impEdge pid d nid ::
                ((impForest (taskId nid) (d + 1) ch (nid + 1)).2.1 ++
                 (impForest pid d ts
                   ((impForest (taskId nid) (d + 1) ch (nid + 1)).2.2)).2.1) := rfl
          rw [h0, ih1]
        refine ⟨?_, ?_, ?_⟩
        · show (impForest pid d ts
              (impTask pid d (OTask.mk text tlvl ch) nid).2.2).2.2 = _
          have hb2 : (impTask pid d (OTask.mk text tlvl ch) nid).2.2 =
              nid + 1 + countF ch := by
            show (impForest (taskId nid) (d + 1) ch (nid + 1)).2.2 = _
            rw [ih1]
          rw [hb2, jh1, hcnt]
          omega
        · rw [hnodes, hrange]
          rw [List.map_cons, List.map_cons, List.map_append, ih2, jh2,
            List.map_append]
          rfl
        · intro e he
          rw [hedges] at he
          show (∃ k, nid ≤ k ∧ k < nid + countF (OTask.mk text tlvl ch :: ts) ∧
              e.eto = taskId k) ∧ _
          rw [hcnt]
          rcases List.mem_cons.1 he with h | h
          · subst h
            refine ⟨⟨nid, le_rfl, by omega, rfl⟩, Or.inl rfl⟩
          rcases List.mem_append.1 h with h | h
          · obtain ⟨⟨k, hk1, hk2, hk3⟩, hfrom⟩ := ih3 e h
            refine ⟨⟨k, by omega, by omega, hk3⟩, ?_⟩
            rcases hfrom with h2 | ⟨k2, hk21, hk22, hk23⟩
            · exact Or.inr ⟨nid, le_rfl, by omega, h2⟩
            · exact Or.inr ⟨k2, by omega, by omega, hk23⟩
          · obtain ⟨⟨k, hk1, hk2, hk3⟩, hfrom⟩ := jh3 e h
            refine ⟨⟨k, by omega, by omega, hk3⟩, ?_⟩
            rcases hfrom with h2 | ⟨k2, hk21, hk22, hk23⟩
            · exact Or.inl h2
            · exact Or.inr ⟨k2, by omega, by omega, hk23⟩)
  exact main.2

/-- One-step decomposition of `impForest` on a cons, with the inner
counter already rewritten to `nid + 1 + countF ch`. -/
theorem impForest_cons_nodes (pid : Str) (d : Nat) (text : Str) (tlvl : Nat)
    (ch ts : List OTask) (nid : Nat) :
    (impForest pid d (OTask.mk text tlvl ch :: ts) nid).1 =
      impNode text d nid ::
        ((impForest (taskId nid) (d + 1) ch (nid + 1)).1 ++
         (impForest pid d ts (nid + 1 + countF ch)).1) := by
  have h0 : (impForest pid d (OTask.mk text tlvl ch :: ts) nid).1 =
      impNode text d nid ::
        ((impForest (taskId nid) (d + 1) ch (nid + 1)).1 ++
         (impForest pid d ts
           ((impForest (taskId nid) (d + 1) ch (nid + 1)).2.2)).1) := rfl
  rw [h0, (impForest_static ch (taskId nid) (d + 1) (nid + 1)).1]

/-- Edge-side analogue of `impForest_cons_nodes`. -/
theorem impForest_cons_edges (pid : Str) (d : Nat) (text : Str) (tlvl : Nat)
    (ch ts : List OTask) (nid : Nat) :
    (impForest pid d (OTask.mk text tlvl ch :: ts) nid).2.1 =
      impEdge pid d nid ::
        ((impForest (taskId nid) (d + 1) ch (nid + 1)).2.1 ++
         (impForest pid d ts (nid + 1 + countF ch)).2.1) := by
  have h0 : (impForest pid d (OTask.mk text tlvl ch :: ts) nid).2.1 =
      impEdge pid d nid ::
        ((impForest (taskId nid) (d + 1) ch (nid + 1)).2.1 ++
         (impForest pid d ts
           ((impForest (taskId nid) (d + 1) ch (nid + 1)).2.2)).2.1) := rfl
  rw [h0, (impForest_static ch (taskId nid) (d + 1) (nid + 1)).1]

/-- A forest is at least as wide as it is deep. -/
theorem depthF_le_countF : ∀ ts : List OTask, depthF ts ≤ countF ts := by
  have main := @OTask.forest_induction
    (fun t => depthT t ≤ countT t)
    (fun ts => depthF ts ≤ countF ts)
    (by
      intro text lvl children ih
      rw [depthT, countT]
      omega)
    le_rfl
    (by
      intro t ts iht ihts
      rw [depthF, countF]
      omega)
  exact main.2

theorem expandTabs2_spacesN (n : Nat) : expandTabs2 (spacesN n) = spacesN n := by
  induction n with
  | zero => rfl
  | succ k ih =>
    show expandTabs2 (' ' :: spacesN k) = ' ' :: spacesN k
    simp only [expandTabs2, List.flatMap_cons] at ih ⊢
    rw [if_neg (by decide)]
    simp only [List.flatMap] at ih
    simpa using ih

/-- The level the importer computes for an emitted outline line. -/
theorem importLevel_emitted {d : Nat} {text : Str} (h : wfText text) :
    (expandTabs2 (leadingWs (spacesN (2 * d) ++ text))).length / 2 = d := by
  unfold leadingWs
  rw [takeWhile_spacesN, takeWhile_eq_nil_of_head (wfText_head h),
    List.append_nil, expandTabs2_spacesN]
  simp [spacesN]

/-- Outline correctness of the exporter on a canonical document fragment:
if the document's edges-from and node-lookup agree with one `impForest`
call's output on the call's fresh id range and the parent id is not fresh,
then `buildOutline`'s traversal of the parent's linked children emits
exactly the outline lines of the call's input forest. -/
theorem impForest_out :
    ∀ ts : List OTask, ∀ pid d nid (N : List GNode) (E : List GEdge)
      (fuel : Nat),
      (∀ k, nid ≤ k → k < nid + countF ts →
        E.filter (fun e => e.efrom = taskId k) =
          (impForest pid d ts nid).2.1.filter (fun e => e.efrom = taskId k)) →
      (∀ k, nid ≤ k → k < nid + countF ts →
        lookupNode N (taskId k) =
          lookupNode (impForest pid d ts nid).1 (taskId k)) →
      (∀ k, nid ≤ k → k < nid + countF ts → pid ≠ taskId k) →
      depthF ts ≤ fuel →
      ((((impForest pid d ts nid).2.1.filter
            (fun e => e.efrom = pid)).filterMap
          (fun e => lookupNode N e.eto)).map
        (fun c => buildOutline (expChildren N E) fuel c d)).flatten =
        (forestLines d ts).flatMap (fun l => l ++ ['\n']) := by
  have main := @OTask.forest_induction
    (fun t => ∀ pid d nid (N : List GNode) (E : List GEdge) (fuel : Nat),
      (∀ k, nid ≤ k → k < nid + countF t.children →
        E.filter (fun e => e.efrom = taskId k) =
          (impForest pid d t.children nid).2.1.filter
            (fun e => e.efrom = taskId k)) →
      (∀ k, nid ≤ k → k < nid + countF t.children →
        lookupNode N (taskId k) =
          lookupNode (impForest pid d t.children nid).1 (taskId k)) →
      (∀ k, nid ≤ k → k < nid + countF t.children → pid ≠ taskId k) →
      depthF t.children ≤ fuel →
      ((((impForest pid d t.children nid).2.1.filter
            (fun e => e.efrom = pid)).filterMap
          (fun e => lookupNode N e.eto)).map
        (fun c => buildOutline (expChildren N E) fuel c d)).flatten =
        (forestLines d t.children).flatMap (fun l => l ++ ['\n']))
    (fun ts => ∀ pid d nid (N : List GNode) (E : List GEdge) (fuel : Nat),
      (∀ k, nid ≤ k → k < nid + countF ts →
        E.filter (fun e => e.efrom = taskId k) =
          (impForest pid d ts nid).2.1.filter (fun e => e.efrom = taskId k)) →
      (∀ k, nid ≤ k → k < nid + countF ts →
        lookupNode N (taskId k) =
          lookupNode (impForest pid d ts nid).1 (taskId k)) →
      (∀ k, nid ≤ k → k < nid + countF ts → pid ≠ taskId k) →
      depthF ts ≤ fuel →
      ((((impForest pid d ts nid).2.1.filter
            (fun e => e.efrom = pid)).filterMap
          (fun e => lookupNode N e.eto)).map
        (fun c => buildOutline (expChildren N E) fuel c d)).flatten =
        (forestLines d ts).flatMap (fun l => l ++ ['\n']))
    (fun text lvl children ih => ih)
    (by
      intro pid d nid N E fuel hE hN hfresh hfuel
      rfl)
    (by
      intro t ts iht ihts pid d nid N E fuel hE hN hfresh hfuel
      cases t with
      | mk text tlvl ch =>
        simp only [OTask.children] at iht
        have hcnt : countF (OTask.mk text tlvl ch :: ts) =
            1 + countF ch + countF ts := by
          show countT (OTask.mk text tlvl ch) + countF ts = _
          show 1 + countF ch + countF ts = _
          rfl
        obtain ⟨sch1, sch2, sch3⟩ := impForest_static ch (taskId nid) (d + 1)
          (nid + 1)
        obtain ⟨sr1, sr2, sr3⟩ := impForest_static ts pid d
          (nid + 1 + countF ch)
        have hnodes := impForest_cons_nodes pid d text tlvl ch ts nid
        have hedges := impForest_cons_edges pid d text tlvl ch ts nid
        cases fuel with
        | zero =>
          exfalso
          rw [depthF, depthT] at hfuel
          omega
        | succ f =>
          rw [depthF, depthT] at hfuel
          have hsome0 : lookupNode N (taskId nid) =
              some (impNode text d nid) := by
            rw [hN nid le_rfl (by rw [hcnt]; omega), hnodes]
            exact lookupNode_cons_self _ _
          have hEch : ∀ k, nid + 1 ≤ k → k < nid + 1 + countF ch →
              E.filter (fun e => e.efrom = taskId k) =
                (impForest (taskId nid) (d + 1) ch (nid + 1)).2.1.filter
                  (fun e => e.efrom = taskId k) := by
            intro k hk1 hk2
            rw [hE k (by omega) (by rw [hcnt]; omega), hedges]
            rw [List.filter_cons_of_neg (by
              simpa [impEdge] using hfresh k (by omega) (by rw [hcnt]; omega))]
            rw [List.filter_append]
            have hnil : (impForest pid d ts (nid + 1 + countF ch)).2.1.filter
                (fun e => e.efrom = taskId k) = [] := by
              rw [List.filter_eq_nil_iff]
              intro e he
              simp only [decide_eq_true_eq]
              obtain ⟨_, hfrom⟩ := sr3 e he
              rcases hfrom with h2 | ⟨k2, hk21, hk22, hk23⟩
              · rw [h2]
                exact hfresh k (by omega) (by rw [hcnt]; omega)
              · rw [hk23]
                intro hc
                have := taskId_injective hc
                omega
            rw [hnil, List.append_nil]
          have hNch : ∀ k, nid + 1 ≤ k → k < nid + 1 + countF ch →
              lookupNode N (taskId k) =
                lookupNode (impForest (taskId nid) (d + 1) ch
                  (nid + 1)).1 (taskId k) := by
            intro k hk1 hk2
            have hkne : taskId nid ≠ taskId k := fun hc => by
              have := taskId_injective hc
              omega
            rw [hN k (by omega) (by rw [hcnt]; omega), hnodes,
              lookupNode_cons_ne (by simpa [impNode] using hkne),
              lookupNode_append]
            have hmem : taskId k ∈ (impForest (taskId nid) (d + 1) ch
                (nid + 1)).1.map (fun n => n.id) := by
              rw [sch2]
              exact taskId_mem_range_map.2 ⟨by omega, by omega⟩
            obtain ⟨x, hx⟩ := Option.isSome_iff_exists.1 (lookupNode_isSome hmem)
            rw [hx]
            rfl
          have hfreshch : ∀ k, nid + 1 ≤ k → k < nid + 1 + countF ch →
              taskId nid ≠ taskId k := fun k hk1 hk2 hc => by
            have := taskId_injective hc
            omega
          have hErest : ∀ k, nid + 1 + countF ch ≤ k →
              k < nid + 1 + countF ch + countF ts →
              E.filter (fun e => e.efrom = taskId k) =
                (impForest pid d ts (nid + 1 + countF ch)).2.1.filter
                  (fun e => e.efrom = taskId k) := by
            intro k hk1 hk2
            rw [hE k (by omega) (by rw [hcnt]; omega), hedges]
            rw [List.filter_cons_of_neg (by
              simpa [impEdge] using hfresh k (by omega) (by rw [hcnt]; omega))]
            rw [List.filter_append]
            have hnil : (impForest (taskId nid) (d + 1) ch
                (nid + 1)).2.1.filter (fun e => e.efrom = taskId k) = [] := by
              rw [List.filter_eq_nil_iff]
              intro e he
              simp only [decide_eq_true_eq]
              obtain ⟨_, hfrom⟩ := sch3 e he
              rcases hfrom with h2 | ⟨k2, hk21, hk22, hk23⟩
              · rw [h2]
                intro hc
                have := taskId_injective hc
                omega
              · rw [hk23]
                intro hc
                have := taskId_injective hc
                omega
            rw [hnil, List.nil_append]
          have hNrest : ∀ k, nid + 1 + countF ch ≤ k →
              k < nid + 1 + countF ch + countF ts →
              lookupNode N (taskId k) =
                lookupNode (impForest pid d ts
                  (nid + 1 + countF ch)).1 (taskId k) := by
            intro k hk1 hk2
            have hkne : taskId nid ≠ taskId k := fun hc => by
              have := taskId_injective hc
              omega
            rw [hN k (by omega) (by rw [hcnt]; omega), hnodes,
              lookupNode_cons_ne (by simpa [impNode] using hkne),
              lookupNode_append]
            have hnone : lookupNode (impForest (taskId nid) (d + 1) ch
                (nid + 1)).1 (taskId k) = none := by
              apply lookupNode_eq_none
              rw [sch2]
              intro hmem
              have := taskId_mem_range_map.1 hmem
              omega
            rw [hnone, Option.none_or]
          have hfreshrest : ∀ k, nid + 1 + countF ch ≤ k →
              k < nid + 1 + countF ch + countF ts → pid ≠ taskId k :=
            fun k hk1 hk2 => hfresh k (by omega) (by rw [hcnt]; omega)
          have hEnid : E.filter (fun e => e.efrom = taskId nid) =
              (impForest (taskId nid) (d + 1) ch (nid + 1)).2.1.filter
                (fun e => e.efrom = taskId nid) := by
            rw [hE nid le_rfl (by rw [hcnt]; omega), hedges]
            rw [List.filter_cons_of_neg (by
              simpa [impEdge] using hfresh nid le_rfl (by rw [hcnt]; omega))]
            rw [List.filter_append]
            have hnil : (impForest pid d ts (nid + 1 + countF ch)).2.1.filter
                (fun e => e.efrom = taskId nid) = [] := by
              rw [List.filter_eq_nil_iff]
              intro e he
              simp only [decide_eq_true_eq]
              obtain ⟨_, hfrom⟩ := sr3 e he
              rcases hfrom with h2 | ⟨k2, hk21, hk22, hk23⟩
              · rw [h2]
                exact hfresh nid le_rfl (by rw [hcnt]; omega)
              · rw [hk23]
                intro hc
                have := taskId_injective hc
                omega
            rw [hnil, List.append_nil]
          have hx : expChildren N E (taskId nid) =
              ((impForest (taskId nid) (d + 1) ch (nid + 1)).2.1.filter
                (fun e => e.efrom = taskId nid)).filterMap
                (fun e => lookupNode N e.eto) := by
            unfold expChildren
            rw [← hEnid]
            congr 1
            apply List.filter_congr
            intro e he
            dsimp only
            rw [decide_eq_decide]
            by_cases hfr : e.efrom = taskId nid
            · have ha : (lookupNode N e.efrom).isSome := by
                rw [hfr, hsome0]
                rfl
              have hmemch : e ∈ (impForest (taskId nid) (d + 1) ch
                  (nid + 1)).2.1 := by
                have hm : e ∈ E.filter (fun e => e.efrom = taskId nid) :=
                  List.mem_filter.2 ⟨he, by simpa using hfr⟩
                rw [hEnid] at hm
                exact (List.mem_filter.1 hm).1
              obtain ⟨⟨k, hk1, hk2, hk3⟩, _⟩ := sch3 e hmemch
              have hb : (lookupNode N e.eto).isSome := by
                rw [hk3, hNch k hk1 hk2]
                apply lookupNode_isSome
                rw [sch2]
                exact taskId_mem_range_map.2 ⟨hk1, hk2⟩
              exact ⟨fun hy => hy.1, fun _ => ⟨hfr, ha, hb⟩⟩
            · exact ⟨fun hy => absurd hy.1 hfr, fun hy => absurd hy hfr⟩
          have hlist : ((impForest pid d (OTask.mk text tlvl ch :: ts)
                nid).2.1.filter (fun e => e.efrom = pid)).filterMap
                (fun e => lookupNode N e.eto) =
              impNode text d nid ::
                (((impForest pid d ts (nid + 1 + countF ch)).2.1.filter
                  (fun e => e.efrom = pid)).filterMap
                  (fun e => lookupNode N e.eto)) := by
            rw [hedges]
            rw [List.filter_cons_of_pos (by simp [impEdge])]
            rw [List.filter_append]
            have hnil : (impForest (taskId nid) (d + 1) ch
                (nid + 1)).2.1.filter (fun e => e.efrom = pid) = [] := by
              rw [List.filter_eq_nil_iff]
              intro e he
              simp only [decide_eq_true_eq]
              obtain ⟨_, hfrom⟩ := sch3 e he
              rcases hfrom with h2 | ⟨k2, hk21, hk22, hk23⟩
              · rw [h2]
                exact fun hc =>
                  hfresh nid le_rfl (by rw [hcnt]; omega) hc.symm
              · rw [hk23]
                exact fun hc =>
                  hfresh k2 (by omega) (by rw [hcnt]; omega) hc.symm
            rw [hnil, List.nil_append]
            exact List.filterMap_cons_some hsome0
          have ihch := iht (taskId nid) (d + 1) (nid + 1) N E f hEch hNch
            hfreshch (by omega)
          have ihrest := ihts pid d (nid + 1 + countF ch) N E (f + 1) hErest
            hNrest hfreshrest (by omega)
          have hhead : buildOutline (expChildren N E) (f + 1)
              (impNode text d nid) d =
              spacesN (2 * d) ++ text ++ ['\n'] ++
                ((expChildren N E (taskId nid)).map
                  (fun c => buildOutline (expChildren N E) f c (d + 1))).flatten := by
            simp only [buildOutline, impNode]
            rw [if_neg (taskId_ne_root nid)]
          rw [hlist, List.map_cons, List.flatten_cons, hhead, hx, ihch, ihrest]
          show _ = (forestLines d (OTask.mk text tlvl ch :: ts)).flatMap
            (fun l => l ++ ['\n'])
          rw [show forestLines d (OTask.mk text tlvl ch :: ts) =
            ((spacesN (2 * d) ++ text) :: forestLines (d + 1) ch) ++
              forestLines d ts from rfl]
          rw [List.flatMap_append, List.flatMap_cons])
  exact main.2

/-- `exportToPlainText` on a canonical imported document emits the header
followed by exactly the outline lines of the underlying label forest. -/
theorem exportToPlainText_canonical (F : List OTask) :
    exportToPlainText (importRootNode :: (impForest (sl "root") 0 F 0).1)
      ((impForest (sl "root") 0 F 0).2.1) =
    sl "# Mind Map Export\n\n" ++
      (forestLines 0 F).flatMap (fun l => l ++ ['\n']) := by
  obtain ⟨s1, s2, s3⟩ := impForest_static F (sl "root") 0 0
  have hroot : lookupNode (importRootNode :: (impForest (sl "root") 0 F 0).1)
      (sl "root") = some importRootNode := lookupNode_cons_self _ _
  have hN : ∀ k, 0 ≤ k → k < 0 + countF F →
      lookupNode (importRootNode :: (impForest (sl "root") 0 F 0).1)
        (taskId k) =
        lookupNode (impForest (sl "root") 0 F 0).1 (taskId k) := by
    intro k _ _
    rw [lookupNode_cons_ne
      (fun hc => taskId_ne_root k ((show sl "root" = taskId k from hc).symm))]
  have hfresh : ∀ k, 0 ≤ k → k < 0 + countF F → sl "root" ≠ taskId k :=
    fun k _ _ hc => taskId_ne_root k hc.symm
  have hlen : (importRootNode :: (impForest (sl "root") 0 F 0).1).length =
      countF F + 1 := by
    rw [List.length_cons]
    have hc := congrArg List.length s2
    simp only [List.length_map, List.length_range'] at hc
    rw [hc]
  have hx : expChildren (importRootNode :: (impForest (sl "root") 0 F 0).1)
      (impForest (sl "root") 0 F 0).2.1 (sl "root") =
      ((impForest (sl "root") 0 F 0).2.1.filter
        (fun e => e.efrom = sl "root")).filterMap
        (fun e => lookupNode
          (importRootNode :: (impForest (sl "root") 0 F 0).1) e.eto) := by
    unfold expChildren
    congr 1
    apply List.filter_congr
    intro e he
    dsimp only
    rw [decide_eq_decide]
    by_cases hfr : e.efrom = sl "root"
    · have ha : (lookupNode (importRootNode ::
          (impForest (sl "root") 0 F 0).1) e.efrom).isSome := by
        rw [hfr, hroot]
        rfl
      obtain ⟨⟨k, hk1, hk2, hk3⟩, _⟩ := s3 e he
      have hb : (lookupNode (importRootNode ::
          (impForest (sl "root") 0 F 0).1) e.eto).isSome := by
        rw [hk3, hN k hk1 hk2]
        apply lookupNode_isSome
        rw [s2]
        exact taskId_mem_range_map.2 ⟨hk1, hk2⟩
      exact ⟨fun hy => hy.1, fun _ => ⟨hfr, ha, hb⟩⟩
    · exact ⟨fun hy => absurd hy.1 hfr, fun hy => absurd hy hfr⟩
  have hout := impForest_out F (sl "root") 0 0
    (importRootNode :: (impForest (sl "root") 0 F 0).1)
    (impForest (sl "root") 0 F 0).2.1 (countF F)
    (fun k _ _ => rfl) hN hfresh (depthF_le_countF F)
  unfold exportToPlainText
  rw [hroot]
  show sl "# Mind Map Export\n\n" ++
      buildOutline (expChildren _ _)
        (importRootNode :: (impForest (sl "root") 0 F 0).1).length
        importRootNode 0 = _
  rw [hlen]
  congr 1
  show ((expChildren (importRootNode :: (impForest (sl "root") 0 F 0).1)
      (impForest (sl "root") 0 F 0).2.1 (sl "root")).map
      (fun c => buildOutline (expChildren _ _) (countF F) c 0)).flatten = _
  rw [hx]
  exact hout

/-! ### Import-side lemmas -/

theorem popTStack_stop {p : TFrame} {rest : List TFrame} {lvl : Int}
    (h : p.tlevel < lvl) : popTStack lvl (p :: rest) = p :: rest := by
  cases rest with
  | nil => rfl
  | cons g gs =>
    show (if lvl ≤ p.tlevel then popTStack lvl (g :: gs) else p :: g :: gs) = _
    rw [if_neg (by omega)]

theorem popTStack_skip_ge : ∀ (ext : List TFrame) (p : TFrame)
    (rest : List TFrame) (lvl : Int), (∀ f ∈ ext, lvl ≤ f.tlevel) →
    popTStack lvl (ext ++ p :: rest) = popTStack lvl (p :: rest) := by
  intro ext
  induction ext with
  | nil =>
    intro p rest lvl h
    rfl
  | cons f ext2 ih =>
    intro p rest lvl h
    rcases hx : ext2 ++ p :: rest with _ | ⟨g, tail⟩
    · exact absurd hx (by simp)
    · show popTStack lvl (f :: (ext2 ++ p :: rest)) = _
      rw [hx]
      show (if lvl ≤ f.tlevel then popTStack lvl (g :: tail)
        else f :: g :: tail) = _
      rw [if_pos (h f (by simp)), ← hx]
      exact ih p rest lvl (fun x hx2 => h x (by simp [hx2]))

theorem popTStack_decompose : ∀ (stack : List TFrame) (lvl : Int),
    ∃ pre, stack = pre ++ popTStack lvl stack ∧
      ∀ f ∈ pre, lvl ≤ f.tlevel := by
  intro stack lvl
  induction stack with
  | nil => exact ⟨[], rfl, by simp⟩
  | cons f rest ih =>
    cases rest with
    | nil => exact ⟨[], rfl, by simp⟩
    | cons g gs =>
      by_cases h : lvl ≤ f.tlevel
      · obtain ⟨pre, hpre, hall⟩ := ih
        refine ⟨f :: pre, ?_, ?_⟩
        · rw [show popTStack lvl (f :: g :: gs) = popTStack lvl (g :: gs)
            from by
              show (if lvl ≤ f.tlevel then popTStack lvl (g :: gs)
                else f :: g :: gs) = _
              rw [if_pos h]]
          rw [List.cons_append, ← hpre]
        · intro x hx
          rcases List.mem_cons.1 hx with h2 | h2
          · subst h2
            exact h
          · exact hall x h2
      · refine ⟨[], ?_, by simp⟩
        rw [List.nil_append]
        show _ = if lvl ≤ f.tlevel then popTStack lvl (g :: gs)
          else f :: g :: gs
        rw [if_neg h]

theorem importLine_emitted (st : TImpState) {d : Nat} {text : Str}
    (h : wfText text) {parent : TFrame} {rest2 : List TFrame}
    (hpop : popTStack (d : Int) st.stack = parent :: rest2) :
    importLine st (spacesN (2 * d) ++ text) =
      TImpState.mk (st.nodes ++ [impNode text d st.nextId])
        (st.edges ++ [impEdge parent.tid d st.nextId])
        (st.nextId + 1)
        (TFrame.mk (taskId st.nextId) (d : Int) :: parent :: rest2) := by
  have hlev := @importLevel_emitted d text h
  have htr : jsTrim (spacesN (2 * d) ++ text) = text := jsTrim_emitted h
  simp only [importLine]
  rw [htr, if_neg h.1, hlev, hpop]
  rfl

theorem forestLines_shape_clean :
    ∀ ts : List OTask, CleanF ts → ∀ d, ∀ l ∈ forestLines d ts,
      ∃ d2 text, l = spacesN (2 * d2) ++ text ∧ cleanText text := by
  have main := @OTask.forest_induction
    (fun t => CleanF t.children → ∀ d, ∀ l ∈ forestLines d t.children,
      ∃ d2 text, l = spacesN (2 * d2) ++ text ∧ cleanText text)
    (fun ts => CleanF ts → ∀ d, ∀ l ∈ forestLines d ts,
      ∃ d2 text, l = spacesN (2 * d2) ++ text ∧ cleanText text)
    (fun text lvl children ih => ih)
    (by
      intro _ d l hl
      exact absurd hl (List.not_mem_nil l))
    (by
      intro t ts iht ihts hwf d l hl
      cases t with
      | mk text tlvl ch =>
        cases hwf with
        | cons _ _ hwt hwts =>
          cases hwt with
          | mk _ _ _ htext hch =>
            rw [show forestLines d (OTask.mk text tlvl ch :: ts) =
                taskLines d (OTask.mk text tlvl ch) ++ forestLines d ts from rfl,
              taskLines] at hl
            rcases List.mem_append.1 hl with h1 | h1
            · rcases List.mem_cons.1 h1 with h2 | h2
              · exact ⟨d, text, h2, htext⟩
              · exact iht hch (d + 1) l h2
            · exact ihts hwts d l h1)
  exact main.2

theorem keepLine_emitted {d : Nat} {text : Str} (h : cleanText text) :
    keepLine (spacesN (2 * d) ++ text) = true := by
  unfold keepLine
  rw [jsTrim_emitted h.1]
  simp [h.1.1, h.2]

/-- The kept lines of the exported text are exactly the outline lines. -/
theorem filter_keepLine_outline {ts : List OTask} (hc : CleanF ts) {d : Nat} :
    (forestLines d ts).filter keepLine = forestLines d ts := by
  rw [List.filter_eq_self]
  intro l hl
  obtain ⟨d2, text, hline, htext⟩ := forestLines_shape_clean ts hc d l hl
  subst hline
  exact keepLine_emitted htext

theorem splitLines_header (body : Str) :
    splitLines (sl "# Mind Map Export\n\n" ++ body) =
      sl "# Mind Map Export" :: [] :: splitLines body := by
  show splitLinesAux (sl "# Mind Map Export" ++ '\n' :: '\n' :: body) [] = _
  rw [splitLinesAux_line (sl "# Mind Map Export") ('\n' :: body) []
    (by decide) (by decide) (by simp)]
  simp only [List.reverse_nil, List.nil_append, splitLines]
  rw [show splitLinesAux ('\n' :: body) [] = [] :: splitLinesAux body []
    from rfl]

theorem forestLines_ne_nil (d : Nat) (t : OTask) (ts : List OTask) :
    forestLines d (t :: ts) ≠ [] := by
  cases t with
  | mk text tlvl ch =>
    rw [show forestLines d (OTask.mk text tlvl ch :: ts) =
      (spacesN (2 * d) ++ text) :: (forestLines (d + 1) ch ++
        forestLines d ts) from rfl]
    exact List.cons_ne_nil _ _

/-- Running the importer's stack machine over the outline lines of a clean
forest, from any state whose stack pops (at the forest's depth) to a
parent frame below that depth, appends exactly the canonical nodes and
edges of the forest under that parent and advances the counter by the task
count; the final stack is the parent's stack under frames at or above the
forest's depth. -/
theorem importLines_run :
    ∀ ts : List OTask, CleanF ts → ∀ (d : Nat) (ns : List GNode) (es : List GEdge)
      (nid : Nat) (stack : List TFrame) (parent : TFrame)
      (rest : List TFrame),
      popTStack (d : Int) stack = parent :: rest →
      parent.tlevel < (d : Int) →
      ∃ ext : List TFrame,
        (forestLines d ts).foldl importLine (TImpState.mk ns es nid stack) =
          TImpState.mk (ns ++ (impForest parent.tid d ts nid).1)
            (es ++ (impForest parent.tid d ts nid).2.1)
            (nid + countF ts) (ext ++ parent :: rest) ∧
        ∀ f ∈ ext, (d : Int) ≤ f.tlevel := by
  have main := @OTask.forest_induction
    (fun t => CleanF t.children → ∀ (d : Nat) (ns : List GNode) (es : List GEdge)
      (nid : Nat) (stack : List TFrame) (parent : TFrame)
      (rest : List TFrame),
      popTStack (d : Int) stack = parent :: rest →
      parent.tlevel < (d : Int) →
      ∃ ext : List TFrame,
        (forestLines d t.children).foldl importLine
            (TImpState.mk ns es nid stack) =
          TImpState.mk (ns ++ (impForest parent.tid d t.children nid).1)
            (es ++ (impForest parent.tid d t.children nid).2.1)
            (nid + countF t.children) (ext ++ parent :: rest) ∧
        ∀ f ∈ ext, (d : Int) ≤ f.tlevel)
    (fun ts => CleanF ts → ∀ (d : Nat) (ns : List GNode) (es : List GEdge)
      (nid : Nat) (stack : List TFrame) (parent : TFrame)
      (rest : List TFrame),
      popTStack (d : Int) stack = parent :: rest →
      parent.tlevel < (d : Int) →
      ∃ ext : List TFrame,
        (forestLines d ts).foldl importLine (TImpState.mk ns es nid stack) =
          TImpState.mk (ns ++ (impForest parent.tid d ts nid).1)
            (es ++ (impForest parent.tid d ts nid).2.1)
            (nid + countF ts) (ext ++ parent :: rest) ∧
        ∀ f ∈ ext, (d : Int) ≤ f.tlevel)
    (fun text lvl children ih => ih)
    (by
      intro _ d ns es nid stack parent rest hpop hlt
      obtain ⟨pre, hpre, hall⟩ := popTStack_decompose stack d
      rw [hpop] at hpre
      refine ⟨pre, ?_, hall⟩
      show TImpState.mk ns es nid stack = _
      rw [hpre]
      simp
      exact ⟨rfl, rfl, rfl⟩)
    (by
      intro t ts iht ihts hcf d ns es nid stack parent rest hpop hlt
      cases t with
      | mk text tlvl ch =>
        cases hcf with
        | cons _ _ hct hcts =>
          cases hct with
          | mk _ _ _ htext hcch =>
            simp only [OTask.children] at iht
            have hcnt : countF (OTask.mk text tlvl ch :: ts) =
                1 + countF ch + countF ts := by
              show countT (OTask.mk text tlvl ch) + countF ts = _
              show 1 + countF ch + countF ts = _
              rfl
            have h1 := importLine_emitted (TImpState.mk ns es nid stack)
              htext.1 hpop
            have hpop2 : popTStack ((d + 1 : Nat) : Int)
                (TFrame.mk (taskId nid) (d : Int) :: parent :: rest) =
                TFrame.mk (taskId nid) (d : Int) :: parent :: rest :=
              popTStack_stop (by
                show (d : Int) < ((d + 1 : Nat) : Int)
                omega)
            obtain ⟨ext1, heq1, hall1⟩ := iht hcch (d + 1)
              (ns ++ [impNode text d nid])
              (es ++ [impEdge parent.tid d nid]) (nid + 1)
              (TFrame.mk (taskId nid) (d : Int) :: parent :: rest)
              (TFrame.mk (taskId nid) (d : Int)) (parent :: rest) hpop2
              (by
                show (d : Int) < ((d + 1 : Nat) : Int)
                omega)
            have hpop3 : popTStack (d : Int)
                (ext1 ++ TFrame.mk (taskId nid) (d : Int) :: parent :: rest) =
                parent :: rest := by
              rw [popTStack_skip_ge ext1 _ _ _
                (fun f hf => by
                  have := hall1 f hf
                  omega)]
              show (if (d : Int) ≤ (d : Int) then popTStack (d : Int)
                (parent :: rest) else _) = _
              rw [if_pos le_rfl]
              exact popTStack_stop hlt
            obtain ⟨ext2, heq2, hall2⟩ := ihts hcts d
              ((ns ++ [impNode text d nid]) ++
                (impForest (taskId nid) (d + 1) ch (nid + 1)).1)
              ((es ++ [impEdge parent.tid d nid]) ++
                (impForest (taskId nid) (d + 1) ch (nid + 1)).2.1)
              (nid + 1 + countF ch)
              (ext1 ++ TFrame.mk (taskId nid) (d : Int) :: parent :: rest)
              parent rest hpop3 hlt
            refine ⟨ext2, ?_, hall2⟩
            rw [show forestLines d (OTask.mk text tlvl ch :: ts) =
              (spacesN (2 * d) ++ text) ::
                (forestLines (d + 1) ch ++ forestLines d ts) from rfl]
            rw [List.foldl_cons, h1, List.foldl_append, heq1, heq2]
            rw [impForest_cons_nodes parent.tid d text tlvl ch ts nid,
              impForest_cons_edges parent.tid d text tlvl ch ts nid, hcnt]
            simp [List.append_assoc]
            omega)
  exact main.2

/-- `importFromText` on the exported text of a clean non-empty label
forest reproduces the canonical document exactly. -/
theorem importFromText_canonical (F : List OTask) (hc : CleanF F)
    (hne : F ≠ []) :
    importFromText (sl "# Mind Map Export\n\n" ++
        (forestLines 0 F).flatMap (fun l => l ++ ['\n'])) =
      some (importRootNode :: (impForest (sl "root") 0 F 0).1,
        (impForest (sl "root") 0 F 0).2.1) := by
  have hwf := CleanF_WfF F hc
  have hsplit : splitLines (sl "# Mind Map Export\n\n" ++
      (forestLines 0 F).flatMap (fun l => l ++ ['\n'])) =
      sl "# Mind Map Export" :: [] :: (forestLines 0 F ++ [[]]) := by
    rw [splitLines_header,
      splitLines_flat (forestLines 0 F)
        (fun l hl => (forestLines_clean hwf l hl).2)]
  have hfilter : (sl "# Mind Map Export" :: [] ::
      (forestLines 0 F ++ [[]])).filter keepLine = forestLines 0 F := by
    rw [List.filter_cons_of_neg (by decide),
      List.filter_cons_of_neg (by decide), List.filter_append,
      filter_keepLine_outline hc,
      show ([[]] : List Str).filter keepLine = [] from rfl, List.append_nil]
  have hne2 : forestLines 0 F ≠ [] := by
    cases F with
    | nil => exact absurd rfl hne
    | cons t ts => exact forestLines_ne_nil 0 t ts
  obtain ⟨ext, heq, -⟩ := importLines_run F hc 0 [importRootNode] [] 0
    [TFrame.mk (sl "root") (-1)] (TFrame.mk (sl "root") (-1)) [] rfl
    (by decide)
  simp only [importFromText]
  rw [hsplit, hfilter, if_neg hne2, heq]
  simp

/-- C6: the plain-text export/import round trip preserves each node's
label text and the parent/child nesting — as corrected, on the documents
whose non-root labels are clean single-line texts (non-empty, trimmed,
newline-free, not beginning with `'#'`): for every non-empty clean label
forest, exporting its canonical document (the importer's own output shape,
which drops color, category and shape) and importing the result back
reproduces that document exactly; and the importer ignores every comment
line whose first non-blank character is `'#'` (in particular the export
header). The preservation claim fails for general documents because the
exporter emits the node's multi-line display label verbatim — see the
counterexample. -/
theorem exportToPlainText_importFromText_roundtrip :
    ∀ F : List OTask, CleanF F → F ≠ [] →
    (importFromText (exportToPlainText
        (importRootNode :: (impForest (sl "root") 0 F 0).1)
        ((impForest (sl "root") 0 F 0).2.1)) =
      some (importRootNode :: (impForest (sl "root") 0 F 0).1,
        (impForest (sl "root") 0 F 0).2.1)) ∧
    (∀ l rest, (jsTrim l).head? = some '#' → ¬ '\n' ∈ l → ¬ '\r' ∈ l →
      importFromText (l ++ '\n' :: rest) = importFromText rest) := by
  intro F hc hne
  constructor
  · rw [exportToPlainText_canonical F]
    exact importFromText_canonical F hc hne
  · intro l rest hhash hnl hcr
    have hsplit : splitLines (l ++ '\n' :: rest) = l :: splitLines rest := by
      show splitLinesAux (l ++ '\n' :: rest) [] = _
      rw [splitLinesAux_line l rest [] hnl hcr (by simp)]
      simp [splitLines]
    have hkeep : keepLine l = false := by
      simp [keepLine, hhash]
    simp only [importFromText]
    rw [hsplit, List.filter_cons_of_neg (by simp [hkeep])]

theorem exportToPlainText_importFromText_roundtrip_witness :
    importFromText (exportToPlainText
        (importRootNode :: (impForest (sl "root") 0
          [OTask.mk (sl "Alpha") 0 [OTask.mk (sl "Beta") 1 []]] 0).1)
        ((impForest (sl "root") 0
          [OTask.mk (sl "Alpha") 0 [OTask.mk (sl "Beta") 1 []]] 0).2.1)) =
      some (importRootNode :: (impForest (sl "root") 0
          [OTask.mk (sl "Alpha") 0 [OTask.mk (sl "Beta") 1 []]] 0).1,
        (impForest (sl "root") 0
          [OTask.mk (sl "Alpha") 0 [OTask.mk (sl "Beta") 1 []]] 0).2.1) :=
  (exportToPlainText_importFromText_roundtrip
    [OTask.mk (sl "Alpha") 0 [OTask.mk (sl "Beta") 1 []]]
    (CleanF.cons _ _
      (CleanT.mk _ _ _
        ⟨⟨by decide, by decide, by decide, by decide⟩, by decide⟩
        (CleanF.cons _ _
          (CleanT.mk _ _ _
            ⟨⟨by decide, by decide, by decide, by decide⟩, by decide⟩
            CleanF.nil)
          CleanF.nil))
      CleanF.nil)
    (List.cons_ne_nil _ _)).1
